import Mathlib

/-!
# A rune-wise trie (`rune_trie.go`)

Shallow embedding of the trie of `src/rune_trie.go` and theorems about it.

* A Go `string` is its sequence of bytes (`GoString`, each element a byte
  value `0 .. 255`).
* A Go `rune` is a natural number (every rune the program produces is
  non-negative).
* `for _, letter := range word` and `[]rune(s)` decode UTF-8 the way the Go
  runtime does (`decoderune`): an ill-formed byte yields `U+FFFD` and
  consumes one byte.  `string(rs)` and `string(r)` encode with `encoderune`.
  Masks, shifts and bit-ors of the runtime are written as `%`, `*`, `/`, `+`
  on naturals (the bit fields are disjoint).
* A `map[rune]*runeNode` is an association list (`runeMap`) in which a write
  to an existing key replaces the entry in place and a write to a new key
  appends.  Go leaves the iteration order of a map unspecified: `search`
  iterates in list order, `searchNodeOrd` in any order, and the two return
  rearrangements of each other.
* Pointer mutation in `Insert` becomes rebuilding the path of the word.
* A run-time panic (slice bounds, index out of range) is `none`.
-/

namespace RuneTrie

/-- A Go string: its bytes. -/
abbrev GoString := List Nat

/-! ## UTF-8 (Go runtime, `utf8.go`) -/

def runeError : Nat := 0xFFFD
def runeSelf : Nat := 0x80
def maxRune : Nat := 0x10FFFF
def surrogateMin : Nat := 0xD800
def surrogateMax : Nat := 0xDFFF
def tx : Nat := 0x80
def t2 : Nat := 0xC0
def t3 : Nat := 0xE0
def t4 : Nat := 0xF0
def t5 : Nat := 0xF8
def rune1Max : Nat := 0x7F
def rune2Max : Nat := 0x7FF
def rune3Max : Nat := 0xFFFF
def locb : Nat := 0x80
def hicb : Nat := 0xBF

/-- Continuation byte test `locb <= b && b <= hicb`. -/
def isCont (b : Nat) : Bool := decide (locb ≤ b) && decide (b ≤ hicb)

/-- One step of a `range` loop over a non-empty string: the rune at the front
and the number of bytes it takes (`decoderune`, with the `runeSelf` fast path
of the loop). -/
def decoderune : GoString → Nat × Nat
  | [] => (runeError, 1)
  | b0 :: rest =>
    if b0 < runeSelf then (b0, 1)
    else if t2 ≤ b0 ∧ b0 < t3 then
      match rest with
      | b1 :: _ =>
        if isCont b1 = true ∧ rune1Max < (b0 % 32) * 64 + b1 % 64 then
          ((b0 % 32) * 64 + b1 % 64, 2)
        else (runeError, 1)
      | [] => (runeError, 1)
    else if t3 ≤ b0 ∧ b0 < t4 then
      match rest with
      | b1 :: b2 :: _ =>
        if isCont b1 = true ∧ isCont b2 = true
            ∧ rune2Max < (b0 % 16) * 4096 + (b1 % 64) * 64 + b2 % 64
            ∧ ¬ (surrogateMin ≤ (b0 % 16) * 4096 + (b1 % 64) * 64 + b2 % 64
                  ∧ (b0 % 16) * 4096 + (b1 % 64) * 64 + b2 % 64 ≤ surrogateMax) then
          ((b0 % 16) * 4096 + (b1 % 64) * 64 + b2 % 64, 3)
        else (runeError, 1)
      | _ => (runeError, 1)
    else if t4 ≤ b0 ∧ b0 < t5 then
      match rest with
      | b1 :: b2 :: b3 :: _ =>
        if isCont b1 = true ∧ isCont b2 = true ∧ isCont b3 = true
            ∧ rune3Max < (b0 % 8) * 262144 + (b1 % 64) * 4096 + (b2 % 64) * 64 + b3 % 64
            ∧ (b0 % 8) * 262144 + (b1 % 64) * 4096 + (b2 % 64) * 64 + b3 % 64 ≤ maxRune then
          ((b0 % 8) * 262144 + (b1 % 64) * 4096 + (b2 % 64) * 64 + b3 % 64, 4)
        else (runeError, 1)
      | _ => (runeError, 1)
    else (runeError, 1)

/-- The runes of a string, with `fuel` bounding the number of steps. -/
def decodeFuel : Nat → GoString → List Nat
  | 0, _ => []
  | _ + 1, [] => []
  | fuel + 1, b :: rest =>
    (decoderune (b :: rest)).1 :: decodeFuel fuel (rest.drop ((decoderune (b :: rest)).2 - 1))

/-- The runes a `range` loop over `s` yields, which is also `[]rune(s)`.
Every step consumes at least one byte, so `s.length` steps are enough. -/
def decodeRunes (s : GoString) : List Nat := decodeFuel s.length s

/-- UTF-8 encoding of one rune (`encoderune`); a surrogate or a value above
`maxRune` is encoded as `U+FFFD`. -/
def encoderune (r : Nat) : GoString :=
  if r ≤ rune1Max then [r]
  else if r ≤ rune2Max then [t2 + r / 64, tx + r % 64]
  else if maxRune < r ∨ (surrogateMin ≤ r ∧ r ≤ surrogateMax) then [0xEF, 0xBF, 0xBD]
  else if r ≤ rune3Max then [t3 + r / 4096, tx + r / 64 % 64, tx + r % 64]
  else [t4 + r / 262144, tx + r / 4096 % 64, tx + r / 64 % 64, tx + r % 64]

/-- The conversion `string(rs)` of a rune slice. -/
def slicerunetostring : List Nat → GoString
  | [] => []
  | r :: rs => encoderune r ++ slicerunetostring rs

/-- A string is well-formed UTF-8: it is the encoding of the runes it decodes
to, so it is a sequence of characters. -/
def ValidUTF8 (s : GoString) : Prop := slicerunetostring (decodeRunes s) = s

instance (s : GoString) : Decidable (ValidUTF8 s) := by
  unfold ValidUTF8; exact inferInstance

/-- Every byte of the string is a single-byte (ASCII) character. -/
def IsASCII (s : GoString) : Prop := ∀ b ∈ s, b < runeSelf

instance (s : GoString) : Decidable (IsASCII s) := by
  unfold IsASCII; exact inferInstance

/-! ## Data model -/

/-- The struct `runeNode`: `children map[rune]*runeNode` and `last bool`. -/
inductive runeNode where
  | mk (children : List (Nat × runeNode)) (last : Bool)

/-- The map `map[rune]*runeNode`. -/
abbrev runeMap := List (Nat × runeNode)

def runeNode.children : runeNode → runeMap
  | .mk c _ => c

def runeNode.last : runeNode → Bool
  | .mk _ l => l

/-- Map read `n, ok := m[k]`. -/
def mapGet : runeMap → Nat → Option runeNode
  | [], _ => none
  | (letter, node) :: rest, k => if letter = k then some node else mapGet rest k

/-- Map write `m[k] = v`. -/
def mapSet : runeMap → Nat → runeNode → runeMap
  | [], k, v => [(k, v)]
  | (letter, node) :: rest, k, v =>
    if letter = k then (letter, v) :: rest else (letter, node) :: mapSet rest k v

/-- Number of entries, `len(m)`. -/
def mapLen (m : runeMap) : Nat := m.length

/-- The struct `runeTrie`. -/
structure runeTrie where
  root : runeNode
  size : Nat

/-- A fresh node `&runeNode{make(map[rune]*runeNode), false}`. -/
def emptyNode : runeNode := .mk [] false

/-! ## Operations -/

def NewRuneTrie : runeTrie := { root := emptyNode, size := 0 }

/-- The loop of `Insert` followed by `current.last = true`, from the node
`current` with the flag `exists` so far: the rebuilt node and the flag. -/
def insertLoop (current : runeNode) (ex : Bool) : List Nat → runeNode × Bool
  | [] => (.mk current.children true, ex)
  | letter :: rest =>
    match mapGet current.children letter with
    | some n =>
      (.mk (mapSet current.children letter (insertLoop n ex rest).1) current.last,
        (insertLoop n ex rest).2)
    | none =>
      (.mk (mapSet current.children letter (insertLoop emptyNode false rest).1) current.last,
        (insertLoop emptyNode false rest).2)

/-- The method `Insert`: the trie after the call and the returned flag. -/
def Insert (t : runeTrie) (word : GoString) : runeTrie × Bool :=
  let r := insertLoop t.root true (decodeRunes word)
  ({ root := r.1, size := if r.2 then t.size else t.size + 1 }, r.2)

/-- The loop of `nodeByPrefix` from `current` with last letter `r`. -/
def nodeByPrefixLoop (current : runeNode) (r : Nat) : List Nat → Option runeNode × Nat
  | [] => (some current, r)
  | letter :: rest =>
    match mapGet current.children letter with
    | none => (none, 0)
    | some n => nodeByPrefixLoop n letter rest

def nodeByPrefix (t : runeTrie) (pre : GoString) : Option runeNode × Nat :=
  nodeByPrefixLoop t.root 0 (decodeRunes pre)

def Contains (t : runeTrie) (word : GoString) : Bool :=
  match (nodeByPrefix t word).1 with
  | some n => n.last
  | none => false

def Size (t : runeTrie) : Nat := t.size

def StartsWith (t : runeTrie) (pre : GoString) : Bool :=
  match (nodeByPrefix t pre).1 with
  | some _ => true
  | none => false

mutual
/-- The function `search` on a node that is not nil. -/
def searchNode : runeNode → Nat → List Nat → List GoString
  | .mk children last, currentRune, pre =>
    (if last then [slicerunetostring (pre ++ [currentRune])] else [])
      ++ searchChildren children (pre ++ [currentRune])
/-- The loop `for letter, node := range currentNode.children` of `search`. -/
def searchChildren : List (Nat × runeNode) → List Nat → List GoString
  | [], _ => []
  | (letter, node) :: rest, newPrefix =>
    searchNode node letter newPrefix ++ searchChildren rest newPrefix
end

def search : Option runeNode → Nat → List Nat → List GoString
  | none, _, _ => []
  | some n, currentRune, pre => searchNode n currentRune pre

/-- The method `SearchByPrefix`; `none` is the panic of `prefix[:len(prefix)-1]`
on the empty string. -/
def SearchByPrefix (t : runeTrie) (pre : GoString) : Option (List GoString) :=
  if pre.length = 0 then none
  else
    some (search (nodeByPrefix t pre).1 (nodeByPrefix t pre).2
      (decodeRunes (pre.take (pre.length - 1))))

/-- The `for` loop of `FindLongestUniqueSuffix` over the bytes
`word[0 .. len(word)-2]`: `none` is the early `return "", false`, otherwise
the node reached and the suffix accumulated. -/
def suffixLoop (current : runeNode) (currentSuffix : GoString) :
    List Nat → Option (runeNode × GoString)
  | [] => some (current, currentSuffix)
  | letter :: rest =>
    match mapGet current.children letter with
    | none => none
    | some n =>
      if mapLen n.children > 1 ∨ n.last = true then suffixLoop n [] rest
      else suffixLoop n (currentSuffix ++ encoderune letter) rest

/-- The method `FindLongestUniqueSuffix`; `none` is the panic of
`word[len(word)-1]` on the empty string. -/
def FindLongestUniqueSuffix (t : runeTrie) (word : GoString) : Option (GoString × Bool) :=
  match word.getLast? with
  | none => none
  | some lastLetter =>
    match suffixLoop t.root [] (word.take (word.length - 1)) with
    | none => some ([], false)
    | some (current, currentSuffix) =>
      match mapGet current.children lastLetter with
      | none => some ([], false)
      | some fin =>
        if fin.last = false then some ([], false)
        else if mapLen fin.children > 0 then some ([], true)
        else some (currentSuffix ++ encoderune lastLetter, true)

/-- The trie obtained from `NewRuneTrie()` by inserting the words of `ws` in
order. -/
def build (ws : List GoString) : runeTrie :=
  ws.foldl (fun t w => (Insert t w).1) NewRuneTrie

/-! ## Paths -/

/-- The node reached from `n` along the runes `p`, if the path exists. -/
def nodeAt (n : runeNode) : List Nat → Option runeNode
  | [] => some n
  | c :: cs =>
    match mapGet n.children c with
    | none => none
    | some m => nodeAt m cs

/-- The path `p` exists below `n`. -/
def hasPath (n : runeNode) (p : List Nat) : Bool :=
  match nodeAt n p with
  | some _ => true
  | none => false

/-- The path `p` exists below `n` and ends in a terminal node. -/
def isWord (n : runeNode) (p : List Nat) : Bool :=
  match nodeAt n p with
  | some m => m.last
  | none => false

/-- The keys of a map, in list order. -/
def mapKeys (m : runeMap) : List Nat := m.map Prod.fst

/-- No node below `n` holds a key twice in its map (true of a Go map). -/
def KeysNodup (n : runeNode) : Prop :=
  ∀ p m, nodeAt n p = some m → (mapKeys m.children).Nodup

/-! ## Definitions used in the statements -/

/-- A Unicode scalar value: at most `maxRune` and not a surrogate. -/
def ValidRune (r : Nat) : Prop := r ≤ maxRune ∧ ¬ (surrogateMin ≤ r ∧ r ≤ surrogateMax)

/-- Length of the longest common prefix of two sequences of characters. -/
def lcpLen : List Nat → List Nat → Nat
  | a :: as, b :: bs => if a = b then lcpLen as bs + 1 else 0
  | _, _ => 0

/-- The greatest length of a common prefix of `w` with another word of `ws`,
counted in characters; 0 when there is no other word. -/
def maxShared (ws : List GoString) (w : GoString) : Nat :=
  ((ws.filter (fun v => decide (v ≠ w))).map
    (fun v => lcpLen (decodeRunes w) (decodeRunes v))).foldr max 0

/-- The node `root` holds exactly the character sequences `U`: its terminal
paths are the members of `U`, its paths are their prefixes, and its maps have
no repeated key. -/
structure Represents (root : runeNode) (U : List (List Nat)) : Prop where
  word : ∀ p, isWord root p = true ↔ p ∈ U
  path : ∀ p, hasPath root p = true ↔ p = [] ∨ ∃ u ∈ U, p <+: u
  keys : KeysNodup root

/-- Another word of `U` shares exactly the first `j` characters of `w`. -/
def SharesExactly (U : List (List Nat)) (w : List Nat) (j : Nat) : Prop :=
  ∃ u ∈ U, u ≠ w ∧ lcpLen w u = j

/-! ## Example words -/

def w_ca : GoString := [99, 97]
def w_cat : GoString := [99, 97, 116]
def w_car : GoString := [99, 97, 114]
def w_cart : GoString := [99, 97, 114, 116]
def w_cards : GoString := [99, 97, 114, 100, 115]
def w_care : GoString := [99, 97, 114, 101]
def w_ds : GoString := [100, 115]
def w_a : GoString := [97]
def w_ab : GoString := [97, 98]
def w_dog : GoString := [100, 111, 103]

mutual
/-- Number of terminal nodes in the subtree of a node. -/
def countLast : runeNode → Nat
  | .mk children last => (if last then 1 else 0) + countLastChildren children
/-- Number of terminal nodes below the entries of a map. -/
def countLastChildren : List (Nat × runeNode) → Nat
  | [] => 0
  | (_, node) :: rest => countLast node + countLastChildren rest
end

/-- The ill-formed one-byte string FF. -/
def w_ff : GoString := [0xFF]
/-- The ill-formed one-byte string FE. -/
def w_fe : GoString := [0xFE]
/-- The ill-formed string FF followed by a. -/
def w_ff_a : GoString := [0xFF, 0x61]
/-- The string a followed by the ill-formed byte FF. -/
def w_a_ff : GoString := [0x61, 0xFF]
/-- The string a followed by the ill-formed byte FE. -/
def w_a_fe : GoString := [0x61, 0xFE]
/-- The character `U+FFFD` followed by a, in UTF-8. -/
def w_fffd_a : GoString := [0xEF, 0xBF, 0xBD, 0x61]
/-- The string a followed by the character `U+FFFD`, in UTF-8. -/
def w_a_fffd : GoString := [0x61, 0xEF, 0xBF, 0xBD]

/-- The word é: one character, two bytes. -/
def w_eAcute : GoString := [0xC3, 0xA9]

/-- Every node below `n`, `n` itself apart, is terminal or has a terminal
descendant. -/
def Live (n : runeNode) : Prop :=
  ∀ q m, q ≠ [] → nodeAt n q = some m → ∃ q2, isWord m q2 = true

/-! ## Iteration order of the children map -/

mutual
/-- The function `search` on a node that is not nil when the loop
`for letter, node := range currentNode.children` is free to visit the entries
in any order: `ord newPrefix` rearranges the results of the children of the
node whose accumulated runes are `newPrefix`. -/
def searchNodeOrd (ord : List Nat → List (List GoString) → List (List GoString)) :
    runeNode → Nat → List Nat → List GoString
  | .mk children last, currentRune, pre =>
    (if last then [slicerunetostring (pre ++ [currentRune])] else [])
      ++ (ord (pre ++ [currentRune])
            (searchBlocksOrd ord children (pre ++ [currentRune]))).flatten
/-- The results of `search` on each entry of a map, one block an entry. -/
def searchBlocksOrd (ord : List Nat → List (List GoString) → List (List GoString)) :
    List (Nat × runeNode) → List Nat → List (List GoString)
  | [], _ => []
  | (letter, node) :: rest, newPrefix =>
    searchNodeOrd ord node letter newPrefix :: searchBlocksOrd ord rest newPrefix
end

def searchOrd (ord : List Nat → List (List GoString) → List (List GoString)) :
    Option runeNode → Nat → List Nat → List GoString
  | none, _, _ => []
  | some n, currentRune, pre => searchNodeOrd ord n currentRune pre

/-- The method `SearchByPrefix` under the iteration order `ord`. -/
def SearchByPrefixOrd (ord : List Nat → List (List GoString) → List (List GoString))
    (t : runeTrie) (pre : GoString) : Option (List GoString) :=
  if pre.length = 0 then none
  else
    some (searchOrd ord (nodeByPrefix t pre).1 (nodeByPrefix t pre).2
      (decodeRunes (pre.take (pre.length - 1))))

/-- An iteration order only rearranges. -/
def IsOrder (ord : List Nat → List (List GoString) → List (List GoString)) : Prop :=
  ∀ (np : List Nat) (l : List (List GoString)), (ord np l).Perm l

mutual
/-- The terminal paths below a node, in map order. -/
def terminalPaths : runeNode → List (List Nat)
  | .mk children last => (if last then [[]] else []) ++ terminalPathsChildren children
/-- The terminal paths that start with an entry of a map. -/
def terminalPathsChildren : List (Nat × runeNode) → List (List Nat)
  | [] => []
  | (letter, node) :: rest =>
    (terminalPaths node).map (fun q => letter :: q) ++ terminalPathsChildren rest
end

/-! ## The read methods as calls -/

/-- The method `Contains` as a call on the receiver `t`, in the shape of
`Insert`: the trie after the call and the returned value.  The body and
`nodeByPrefix` read `t.root`, `children[letter]` and `last` and assign to no
field of the trie or of a node, so the trie after the call is the receiver. -/
def ContainsCall (t : runeTrie) (word : GoString) : runeTrie × Bool :=
  (t, Contains t word)

/-- The method `StartsWith` as a call; it assigns to no field. -/
def StartsWithCall (t : runeTrie) (pre : GoString) : runeTrie × Bool :=
  (t, StartsWith t pre)

/-- The method `SearchByPrefix` as a call under an iteration order; `search`
appends to local slices only. -/
def SearchByPrefixCall (ord : List Nat → List (List GoString) → List (List GoString))
    (t : runeTrie) (pre : GoString) : runeTrie × Option (List GoString) :=
  (t, SearchByPrefixOrd ord t pre)

/-- The method `FindLongestUniqueSuffix` as a call; it assigns to the locals
`current` and `currentSuffix` only. -/
def FindLongestUniqueSuffixCall (t : runeTrie) (word : GoString) :
    runeTrie × Option (GoString × Bool) :=
  (t, FindLongestUniqueSuffix t word)

/-! ## UTF-8 lemmas -/

theorem decodeFuel_eq (f1 : Nat) : ∀ (f2 : Nat) (s : GoString),
    s.length ≤ f1 → s.length ≤ f2 → decodeFuel f1 s = decodeFuel f2 s := by
  induction f1 with
  | zero =>
    intro f2 s h1 _
    have hs : s = [] := List.length_eq_zero.mp (Nat.le_zero.mp h1)
    subst hs
    cases f2 <;> rfl
  | succ f1 ih =>
    intro f2 s h1 h2
    cases s with
    | nil => cases f2 <;> rfl
    | cons b rest =>
      cases f2 with
      | zero => simp at h2
      | succ f2 =>
        simp only [decodeFuel]
        congr 1
        apply ih
        · simp only [List.length_drop, List.length_cons] at *; omega
        · simp only [List.length_drop, List.length_cons] at *; omega

theorem decodeRunes_nil : decodeRunes [] = [] := rfl

theorem decodeRunes_cons (b : Nat) (rest : GoString) :
    decodeRunes (b :: rest) =
      (decoderune (b :: rest)).1 ::
        decodeRunes (rest.drop ((decoderune (b :: rest)).2 - 1)) := by
  unfold decodeRunes
  simp only [List.length_cons, decodeFuel]
  congr 1
  apply decodeFuel_eq
  · simp only [List.length_drop]; omega
  · exact le_refl _

theorem decodeRunes_cons_ascii (b : Nat) (rest : GoString) (hb : b < runeSelf) :
    decodeRunes (b :: rest) = b :: decodeRunes rest := by
  rw [decodeRunes_cons]
  simp [decoderune, hb]

theorem decodeRunes_ascii (w : GoString) (h : IsASCII w) : decodeRunes w = w := by
  induction w with
  | nil => rfl
  | cons b rest ih =>
    rw [decodeRunes_cons_ascii b rest (h b (List.mem_cons_self _ _))]
    rw [ih (fun c hc => h c (List.mem_cons_of_mem _ hc))]

theorem decoderune_valid (s : GoString) : ValidRune (decoderune s).1 := by
  unfold ValidRune
  cases s with
  | nil => simp [decoderune, runeError, maxRune, surrogateMin, surrogateMax]
  | cons b0 rest =>
    simp only [decoderune]
    split_ifs with h1 h2 h3 h4
    · simp only [runeSelf, maxRune, surrogateMin, surrogateMax] at *; omega
    · split
      · split_ifs with h5
        · simp only [maxRune, surrogateMin, surrogateMax] at *; omega
        · simp [runeError, maxRune, surrogateMin, surrogateMax]
      · simp [runeError, maxRune, surrogateMin, surrogateMax]
    · split
      · split_ifs with h5
        · simp only [maxRune, surrogateMin, surrogateMax] at *; omega
        · simp [runeError, maxRune, surrogateMin, surrogateMax]
      · simp [runeError, maxRune, surrogateMin, surrogateMax]
    · split
      · split_ifs with h5
        · simp only [maxRune, surrogateMin, surrogateMax, rune3Max] at *; omega
        · simp [runeError, maxRune, surrogateMin, surrogateMax]
      · simp [runeError, maxRune, surrogateMin, surrogateMax]
    · simp [runeError, maxRune, surrogateMin, surrogateMax]

theorem decodeRunes_valid_aux (n : Nat) : ∀ s : GoString, s.length ≤ n →
    ∀ r ∈ decodeRunes s, ValidRune r := by
  induction n with
  | zero =>
    intro s hs r hr
    have : s = [] := List.length_eq_zero.mp (Nat.le_zero.mp hs)
    subst this
    simp [decodeRunes_nil] at hr
  | succ n ih =>
    intro s hs r hr
    cases s with
    | nil => simp [decodeRunes_nil] at hr
    | cons b rest =>
      rw [decodeRunes_cons] at hr
      rcases List.mem_cons.mp hr with hr | hr
      · rw [hr]; exact decoderune_valid _
      · refine ih _ ?_ r hr
        simp only [List.length_drop, List.length_cons] at *; omega

theorem decodeRunes_valid (s : GoString) : ∀ r ∈ decodeRunes s, ValidRune r :=
  decodeRunes_valid_aux s.length s (le_refl _)

theorem decoderune_one (b0 : Nat) (rest : GoString) (h0 : b0 < 128) :
    decoderune (b0 :: rest) = (b0, 1) := by
  simp only [decoderune]
  rw [if_pos (by simp only [runeSelf]; omega)]

theorem decoderune_two (b0 b1 : Nat) (rest : GoString) (h0 : 192 ≤ b0 ∧ b0 < 224)
    (h1 : 128 ≤ b1 ∧ b1 ≤ 191) (hr : 127 < (b0 % 32) * 64 + b1 % 64) :
    decoderune (b0 :: b1 :: rest) = ((b0 % 32) * 64 + b1 % 64, 2) := by
  simp only [decoderune]
  rw [if_neg (by simp only [runeSelf]; omega), if_pos (by simp only [t2, t3]; omega),
    if_pos]
  refine ⟨?_, ?_⟩
  · simp only [isCont, locb, hicb, Bool.and_eq_true, decide_eq_true_eq]; omega
  · simp only [rune1Max]; omega

theorem decoderune_three (b0 b1 b2 : Nat) (rest : GoString) (h0 : 224 ≤ b0 ∧ b0 < 240)
    (h1 : 128 ≤ b1 ∧ b1 ≤ 191) (h2 : 128 ≤ b2 ∧ b2 ≤ 191)
    (hr : 2047 < (b0 % 16) * 4096 + (b1 % 64) * 64 + b2 % 64)
    (hs : ¬ (55296 ≤ (b0 % 16) * 4096 + (b1 % 64) * 64 + b2 % 64
      ∧ (b0 % 16) * 4096 + (b1 % 64) * 64 + b2 % 64 ≤ 57343)) :
    decoderune (b0 :: b1 :: b2 :: rest) = ((b0 % 16) * 4096 + (b1 % 64) * 64 + b2 % 64, 3) := by
  simp only [decoderune]
  rw [if_neg (by simp only [runeSelf]; omega), if_neg (by simp only [t2, t3]; omega),
    if_pos (by simp only [t3, t4]; omega), if_pos]
  refine ⟨?_, ?_, ?_, ?_⟩
  · simp only [isCont, locb, hicb, Bool.and_eq_true, decide_eq_true_eq]; omega
  · simp only [isCont, locb, hicb, Bool.and_eq_true, decide_eq_true_eq]; omega
  · simp only [rune2Max]; omega
  · simp only [surrogateMin, surrogateMax]; exact hs

theorem decoderune_four (b0 b1 b2 b3 : Nat) (rest : GoString) (h0 : 240 ≤ b0 ∧ b0 < 248)
    (h1 : 128 ≤ b1 ∧ b1 ≤ 191) (h2 : 128 ≤ b2 ∧ b2 ≤ 191) (h3 : 128 ≤ b3 ∧ b3 ≤ 191)
    (hr : 65535 < (b0 % 8) * 262144 + (b1 % 64) * 4096 + (b2 % 64) * 64 + b3 % 64)
    (hm : (b0 % 8) * 262144 + (b1 % 64) * 4096 + (b2 % 64) * 64 + b3 % 64 ≤ 1114111) :
    decoderune (b0 :: b1 :: b2 :: b3 :: rest)
      = ((b0 % 8) * 262144 + (b1 % 64) * 4096 + (b2 % 64) * 64 + b3 % 64, 4) := by
  simp only [decoderune]
  rw [if_neg (by simp only [runeSelf]; omega), if_neg (by simp only [t2, t3]; omega),
    if_neg (by simp only [t3, t4]; omega), if_pos (by simp only [t4, t5]; omega), if_pos]
  refine ⟨?_, ?_, ?_, ?_, ?_⟩
  · simp only [isCont, locb, hicb, Bool.and_eq_true, decide_eq_true_eq]; omega
  · simp only [isCont, locb, hicb, Bool.and_eq_true, decide_eq_true_eq]; omega
  · simp only [isCont, locb, hicb, Bool.and_eq_true, decide_eq_true_eq]; omega
  · simp only [rune3Max]; omega
  · simp only [maxRune]; exact hm

theorem decoderune_encoderune (r : Nat) (s : GoString) (hr : ValidRune r) :
    decoderune (encoderune r ++ s) = (r, (encoderune r).length) := by
  unfold ValidRune at hr
  simp only [maxRune, surrogateMin, surrogateMax] at hr
  unfold encoderune
  simp only [rune1Max, rune2Max, rune3Max, maxRune, surrogateMin, surrogateMax, t2, t3, t4, tx]
  split_ifs with h1 h2 h3 h4
  · exact decoderune_one r s (by omega)
  · simp only [List.cons_append, List.nil_append, List.length_cons, List.length_nil]
    rw [decoderune_two _ _ _ (by omega) (by omega) (by omega)]
    refine Prod.ext ?_ rfl
    show (192 + r / 64) % 32 * 64 + (128 + r % 64) % 64 = r
    omega
  · omega
  · simp only [List.cons_append, List.nil_append, List.length_cons, List.length_nil]
    rw [decoderune_three _ _ _ _ (by omega) (by omega) (by omega) (by omega) (by omega)]
    refine Prod.ext ?_ rfl
    show (224 + r / 4096) % 16 * 4096 + (128 + r / 64 % 64) % 64 * 64
      + (128 + r % 64) % 64 = r
    omega
  · simp only [List.cons_append, List.nil_append, List.length_cons, List.length_nil]
    rw [decoderune_four _ _ _ _ _ (by omega) (by omega) (by omega) (by omega) (by omega)
      (by omega)]
    refine Prod.ext ?_ rfl
    show (240 + r / 262144) % 8 * 262144 + (128 + r / 4096 % 64) % 64 * 4096
      + (128 + r / 64 % 64) % 64 * 64 + (128 + r % 64) % 64 = r
    omega

theorem encoderune_ne_nil (r : Nat) : encoderune r ≠ [] := by
  unfold encoderune; split_ifs <;> simp

theorem decodeRunes_encoderune_append (r : Nat) (s : GoString) (hr : ValidRune r) :
    decodeRunes (encoderune r ++ s) = r :: decodeRunes s := by
  have hd := decoderune_encoderune r s hr
  cases he : encoderune r with
  | nil => exact absurd he (encoderune_ne_nil r)
  | cons b rest =>
    rw [he] at hd
    rw [List.cons_append, decodeRunes_cons] at *
    rw [hd]
    simp

theorem slicerunetostring_append (a b : List Nat) :
    slicerunetostring (a ++ b) = slicerunetostring a ++ slicerunetostring b := by
  induction a with
  | nil => rfl
  | cons r a ih => simp [slicerunetostring, ih]

theorem decodeRunes_slicerunetostring_append (rs : List Nat) (s : GoString)
    (h : ∀ r ∈ rs, ValidRune r) :
    decodeRunes (slicerunetostring rs ++ s) = rs ++ decodeRunes s := by
  induction rs with
  | nil => rfl
  | cons r rs ih =>
    simp only [slicerunetostring, List.append_assoc]
    rw [decodeRunes_encoderune_append r _ (h r (List.mem_cons_self _ _))]
    rw [ih (fun x hx => h x (List.mem_cons_of_mem _ hx))]
    rfl

/-- Decoding distributes over appending to a well-formed string. -/
theorem decodeRunes_append_of_valid (p s : GoString) (hp : ValidUTF8 p) :
    decodeRunes (p ++ s) = decodeRunes p ++ decodeRunes s := by
  have := decodeRunes_slicerunetostring_append (decodeRunes p) s (decodeRunes_valid p)
  unfold ValidUTF8 at hp
  rw [hp] at this
  exact this

/-- For well-formed strings, being a literal prefix is being a prefix as
sequences of characters. -/
theorem isPrefix_iff_decodeRunes_isPrefix (p w : GoString) (hp : ValidUTF8 p) (hw : ValidUTF8 w) :
    p <+: w ↔ decodeRunes p <+: decodeRunes w := by
  constructor
  · rintro ⟨s, rfl⟩
    rw [decodeRunes_append_of_valid p s hp]
    exact List.prefix_append _ _
  · rintro ⟨q, hq⟩
    refine ⟨slicerunetostring q, ?_⟩
    unfold ValidUTF8 at hp hw
    rw [← hw, ← hq, slicerunetostring_append, hp]

/-- Well-formed strings with the same characters are equal. -/
theorem eq_of_decodeRunes_eq (v w : GoString) (hv : ValidUTF8 v) (hw : ValidUTF8 w)
    (h : decodeRunes v = decodeRunes w) : v = w := by
  unfold ValidUTF8 at hv hw
  rw [← hv, ← hw, h]

theorem validUTF8_of_ascii (w : GoString) (h : IsASCII w) : ValidUTF8 w := by
  unfold ValidUTF8
  rw [decodeRunes_ascii w h]
  induction w with
  | nil => rfl
  | cons b rest ih =>
    have hb : b < runeSelf := h b (List.mem_cons_self _ _)
    have : encoderune b = [b] := by
      unfold encoderune; simp only [runeSelf, rune1Max] at *; rw [if_pos (by omega)]
    simp [slicerunetostring, this, ih (fun c hc => h c (List.mem_cons_of_mem _ hc))]

/-! ## Map lemmas -/

theorem mapGet_set_same (m : runeMap) (k : Nat) (v : runeNode) :
    mapGet (mapSet m k v) k = some v := by
  induction m with
  | nil => simp [mapSet, mapGet]
  | cons e rest ih =>
    obtain ⟨letter, node⟩ := e
    by_cases h : letter = k
    · simp [mapSet, mapGet, h]
    · simp [mapSet, mapGet, h, ih]

theorem mapGet_set_ne (m : runeMap) (k c : Nat) (v : runeNode) (h : k ≠ c) :
    mapGet (mapSet m k v) c = mapGet m c := by
  induction m with
  | nil => simp [mapSet, mapGet, h]
  | cons e rest ih =>
    obtain ⟨letter, node⟩ := e
    by_cases hk : letter = k
    · subst hk; simp [mapSet, mapGet, h]
    · by_cases hc : letter = c
      · subst hc; simp [mapSet, mapGet, hk]
      · simp [mapSet, mapGet, hk, hc, ih]

/-! ## Paths after an insertion -/

@[simp] theorem children_mk (c : runeMap) (l : Bool) : (runeNode.mk c l).children = c := rfl

@[simp] theorem last_mk (c : runeMap) (l : Bool) : (runeNode.mk c l).last = l := rfl

theorem nodeAt_nil (n : runeNode) : nodeAt n [] = some n := rfl

theorem nodeAt_cons_none (n : runeNode) (c : Nat) (p : List Nat)
    (h : mapGet n.children c = none) : nodeAt n (c :: p) = none := by
  simp [nodeAt, h]

theorem nodeAt_cons_some (n m : runeNode) (c : Nat) (p : List Nat)
    (h : mapGet n.children c = some m) : nodeAt n (c :: p) = nodeAt m p := by
  simp [nodeAt, h]

theorem insertLoop_nil (n : runeNode) (ex : Bool) :
    insertLoop n ex [] = (.mk n.children true, ex) := rfl

theorem insertLoop_cons_none (n : runeNode) (ex : Bool) (l : Nat) (rest : List Nat)
    (h : mapGet n.children l = none) :
    insertLoop n ex (l :: rest) =
      (.mk (mapSet n.children l (insertLoop emptyNode false rest).1) n.last,
        (insertLoop emptyNode false rest).2) := by
  simp [insertLoop, h]

theorem insertLoop_cons_some (n m : runeNode) (ex : Bool) (l : Nat) (rest : List Nat)
    (h : mapGet n.children l = some m) :
    insertLoop n ex (l :: rest) =
      (.mk (mapSet n.children l (insertLoop m ex rest).1) n.last,
        (insertLoop m ex rest).2) := by
  simp [insertLoop, h]

theorem nodeAt_emptyNode_cons (c : Nat) (p : List Nat) : nodeAt emptyNode (c :: p) = none :=
  nodeAt_cons_none _ _ _ rfl

theorem isWord_emptyNode (p : List Nat) : isWord emptyNode p = false := by
  cases p with
  | nil => rfl
  | cons c p => simp [isWord, nodeAt_emptyNode_cons]

theorem hasPath_emptyNode (p : List Nat) : hasPath emptyNode p = decide (p = []) := by
  cases p with
  | nil => rfl
  | cons c p => simp [hasPath, nodeAt_emptyNode_cons]

theorem nodeByPrefixLoop_fst (n : runeNode) (r : Nat) (p : List Nat) :
    (nodeByPrefixLoop n r p).1 = nodeAt n p := by
  induction p generalizing n r with
  | nil => rfl
  | cons c p ih =>
    simp only [nodeByPrefixLoop, nodeAt]
    cases h : mapGet n.children c with
    | none => rfl
    | some m => exact ih m c

/-- The node at `p` after inserting `w` below `n`, for a path that starts with
the first letter of `w`. -/
theorem nodeAt_insertLoop_cons_same (n : runeNode) (ex : Bool) (l : Nat) (rest p : List Nat) :
    ∃ m ex2, nodeAt (insertLoop n ex (l :: rest)).1 (l :: p) = nodeAt (insertLoop m ex2 rest).1 p
      ∧ (mapGet n.children l = some m ∨ (mapGet n.children l = none ∧ m = emptyNode)) := by
  cases h : mapGet n.children l with
  | none =>
    refine ⟨emptyNode, false, ?_, Or.inr ⟨rfl, rfl⟩⟩
    rw [insertLoop_cons_none _ _ _ _ h]
    exact nodeAt_cons_some _ _ _ _ (mapGet_set_same _ _ _)
  | some m =>
    refine ⟨m, ex, ?_, Or.inl rfl⟩
    rw [insertLoop_cons_some _ _ _ _ _ h]
    exact nodeAt_cons_some _ _ _ _ (mapGet_set_same _ _ _)

/-- A path that leaves the word at its first letter is not touched. -/
theorem nodeAt_insertLoop_cons_ne (n : runeNode) (ex : Bool) (l c : Nat) (rest p : List Nat)
    (hc : l ≠ c) :
    nodeAt (insertLoop n ex (l :: rest)).1 (c :: p) = nodeAt n (c :: p) := by
  have key : ∀ v lst, nodeAt (runeNode.mk (mapSet n.children l v) lst) (c :: p)
      = nodeAt n (c :: p) := by
    intro v lst
    simp only [nodeAt, children_mk, mapGet_set_ne _ _ _ _ hc]
  cases h : mapGet n.children l with
  | none => rw [insertLoop_cons_none _ _ _ _ h]; exact key _ _
  | some m => rw [insertLoop_cons_some _ _ _ _ _ h]; exact key _ _

theorem insertLoop_cons_last (n : runeNode) (ex : Bool) (l : Nat) (rest : List Nat) :
    (insertLoop n ex (l :: rest)).1.last = n.last := by
  cases h : mapGet n.children l with
  | none => rw [insertLoop_cons_none _ _ _ _ h]; rfl
  | some m => rw [insertLoop_cons_some _ _ _ _ _ h]; rfl

theorem isWord_insertLoop (w : List Nat) : ∀ (n : runeNode) (ex : Bool) (p : List Nat),
    isWord (insertLoop n ex w).1 p = (isWord n p || decide (p = w)) := by
  induction w with
  | nil =>
    intro n ex p
    cases p with
    | nil => simp [insertLoop, isWord, nodeAt]
    | cons c p => simp [insertLoop, isWord, nodeAt]
  | cons l rest ih =>
    intro n ex p
    cases p with
    | nil => simp [isWord, nodeAt, insertLoop_cons_last]
    | cons c p =>
      by_cases hc : l = c
      · subst hc
        obtain ⟨m, ex2, hm, hcase⟩ := nodeAt_insertLoop_cons_same n ex l rest p
        have h2 := ih m ex2 p
        simp only [isWord] at h2 ⊢
        rw [hm, h2]
        rcases hcase with hg | ⟨hg, hme⟩
        · rw [nodeAt_cons_some _ _ _ _ hg]; simp
        · subst hme
          have he := isWord_emptyNode p
          simp only [isWord] at he
          rw [nodeAt_cons_none _ _ _ hg, he]; simp
      · have hne : ¬ (c = l) := fun e => hc e.symm
        simp only [isWord]
        rw [nodeAt_insertLoop_cons_ne _ _ _ _ _ _ hc]
        simp [hne]

theorem hasPath_insertLoop (w : List Nat) : ∀ (n : runeNode) (ex : Bool) (p : List Nat),
    hasPath (insertLoop n ex w).1 p = (hasPath n p || decide (p <+: w)) := by
  induction w with
  | nil =>
    intro n ex p
    cases p with
    | nil => simp [insertLoop, hasPath, nodeAt]
    | cons c p => simp [insertLoop, hasPath, nodeAt]
  | cons l rest ih =>
    intro n ex p
    cases p with
    | nil => simp [hasPath, nodeAt]
    | cons c p =>
      by_cases hc : l = c
      · subst hc
        obtain ⟨m, ex2, hm, hcase⟩ := nodeAt_insertLoop_cons_same n ex l rest p
        have h2 := ih m ex2 p
        simp only [hasPath] at h2 ⊢
        rw [hm, h2]
        rcases hcase with hg | ⟨hg, hme⟩
        · rw [nodeAt_cons_some _ _ _ _ hg]; simp [List.cons_prefix_cons]
        · subst hme
          have he := hasPath_emptyNode p
          simp only [hasPath] at he
          rw [nodeAt_cons_none _ _ _ hg, he]
          by_cases hp : p = []
          · subst hp; simp
          · simp [hp, List.cons_prefix_cons]
      · have hne : ¬ (c = l) := fun e => hc e.symm
        simp only [hasPath]
        rw [nodeAt_insertLoop_cons_ne _ _ _ _ _ _ hc]
        simp [hne, List.cons_prefix_cons]

theorem insertLoop_snd (w : List Nat) : ∀ (n : runeNode) (ex : Bool),
    (insertLoop n ex w).2 = (ex && hasPath n w) := by
  induction w with
  | nil => intro n ex; simp [insertLoop, hasPath, nodeAt]
  | cons l rest ih =>
    intro n ex
    cases h : mapGet n.children l with
    | none =>
      rw [insertLoop_cons_none _ _ _ _ h]
      simp [hasPath, nodeAt_cons_none _ _ _ h, ih]
    | some m =>
      rw [insertLoop_cons_some _ _ _ _ _ h]
      have := ih m ex
      simp only [hasPath] at this ⊢
      rw [nodeAt_cons_some _ _ _ _ h]
      exact this

/-! ## The methods in terms of paths -/

theorem Contains_eq (t : runeTrie) (w : GoString) :
    Contains t w = isWord t.root (decodeRunes w) := by
  simp only [Contains, nodeByPrefix, nodeByPrefixLoop_fst, isWord]

theorem StartsWith_eq (t : runeTrie) (p : GoString) :
    StartsWith t p = hasPath t.root (decodeRunes p) := by
  simp only [StartsWith, nodeByPrefix, nodeByPrefixLoop_fst, hasPath]

theorem Insert_root (t : runeTrie) (w : GoString) :
    (Insert t w).1.root = (insertLoop t.root true (decodeRunes w)).1 := rfl

theorem Insert_snd (t : runeTrie) (w : GoString) :
    (Insert t w).2 = StartsWith t w := by
  rw [StartsWith_eq]
  simp [Insert, insertLoop_snd]

theorem isWord_foldl (ws : List GoString) : ∀ (t : runeTrie) (p : List Nat),
    isWord (ws.foldl (fun t w => (Insert t w).1) t).root p = true
      ↔ isWord t.root p = true ∨ ∃ w ∈ ws, decodeRunes w = p := by
  induction ws with
  | nil => intro t p; simp
  | cons w ws ih =>
    intro t p
    rw [List.foldl_cons, ih, Insert_root, isWord_insertLoop]
    simp only [Bool.or_eq_true, decide_eq_true_eq, List.mem_cons, exists_eq_or_imp]
    constructor
    · rintro ((h | h) | h)
      · exact Or.inl h
      · exact Or.inr (Or.inl h.symm)
      · exact Or.inr (Or.inr h)
    · rintro (h | h | h)
      · exact Or.inl (Or.inl h)
      · exact Or.inl (Or.inr h.symm)
      · exact Or.inr h

theorem hasPath_foldl (ws : List GoString) : ∀ (t : runeTrie) (p : List Nat),
    hasPath (ws.foldl (fun t w => (Insert t w).1) t).root p = true
      ↔ hasPath t.root p = true ∨ ∃ w ∈ ws, p <+: decodeRunes w := by
  induction ws with
  | nil => intro t p; simp
  | cons w ws ih =>
    intro t p
    rw [List.foldl_cons, ih, Insert_root, hasPath_insertLoop]
    simp only [Bool.or_eq_true, decide_eq_true_eq, List.mem_cons, exists_eq_or_imp]
    constructor
    · rintro ((h | h) | h)
      · exact Or.inl h
      · exact Or.inr (Or.inl h)
      · exact Or.inr (Or.inr h)
    · rintro (h | h | h)
      · exact Or.inl (Or.inl h)
      · exact Or.inl (Or.inr h)
      · exact Or.inr h

/-- The terminal paths of a built trie are the inserted words. -/
theorem isWord_build (ws : List GoString) (p : List Nat) :
    isWord (build ws).root p = true ↔ ∃ w ∈ ws, decodeRunes w = p := by
  unfold build
  rw [isWord_foldl]
  simp [NewRuneTrie, isWord_emptyNode]

/-- The paths of a built trie are the prefixes of the inserted words. -/
theorem hasPath_build (ws : List GoString) (p : List Nat) :
    hasPath (build ws).root p = true ↔ p = [] ∨ ∃ w ∈ ws, p <+: decodeRunes w := by
  unfold build
  rw [hasPath_foldl]
  simp [NewRuneTrie, hasPath_emptyNode]

/-! ## The walk of `FindLongestUniqueSuffix` -/

theorem nodeAt_append (a b : List Nat) : ∀ n : runeNode,
    nodeAt n (a ++ b) = (nodeAt n a).bind (fun m => nodeAt m b) := by
  induction a with
  | nil => intro n; rfl
  | cons c a ih =>
    intro n
    cases h : mapGet n.children c with
    | none => rw [List.cons_append, nodeAt_cons_none _ _ _ h, nodeAt_cons_none _ _ _ h]; rfl
    | some m =>
      rw [List.cons_append, nodeAt_cons_some _ _ _ _ h, nodeAt_cons_some _ _ _ _ h]
      exact ih m

theorem nodeAt_concat (a : List Nat) (l : Nat) (n : runeNode) :
    nodeAt n (a ++ [l]) = (nodeAt n a).bind (fun m => mapGet m.children l) := by
  rw [nodeAt_append]
  congr 1
  funext m
  cases h : mapGet m.children l with
  | none => exact nodeAt_cons_none _ _ _ h
  | some k => rw [nodeAt_cons_some _ _ _ _ h]; rfl

theorem suffixLoop_fst (bs : List Nat) : ∀ (n : runeNode) (acc : GoString),
    (suffixLoop n acc bs).map Prod.fst = nodeAt n bs := by
  induction bs with
  | nil => intro n acc; rfl
  | cons b bs ih =>
    intro n acc
    cases h : mapGet n.children b with
    | none => simp [suffixLoop, h, nodeAt_cons_none _ _ _ h]
    | some m =>
      rw [nodeAt_cons_some _ _ _ _ h]
      simp only [suffixLoop, h]
      split_ifs
      · exact ih m []
      · exact ih m _

theorem FindLongestUniqueSuffix_concat (t : runeTrie) (init : GoString) (l : Nat) :
    FindLongestUniqueSuffix t (init ++ [l]) =
      match suffixLoop t.root [] init with
      | none => some ([], false)
      | some (current, currentSuffix) =>
        match mapGet current.children l with
        | none => some ([], false)
        | some fin =>
          if fin.last = false then some ([], false)
          else if mapLen fin.children > 0 then some ([], true)
          else some (currentSuffix ++ encoderune l, true) := by
  unfold FindLongestUniqueSuffix
  simp

theorem exists_concat_of_ne_nil (w : GoString) (h : w ≠ []) : ∃ init l, w = init ++ [l] :=
  ⟨w.dropLast, w.getLast h, (List.dropLast_append_getLast h).symm⟩

/-- On every trie and every non-empty ASCII word the flag returned by
`FindLongestUniqueSuffix` is `Contains`, and the suffix is empty when the flag
is false. -/
theorem FindLongestUniqueSuffix_found (t : runeTrie) (w : GoString) (hne : w ≠ [])
    (hascii : IsASCII w) :
    ∃ s, FindLongestUniqueSuffix t w = some (s, Contains t w)
      ∧ (Contains t w = false → s = []) := by
  obtain ⟨init, l, rfl⟩ := exists_concat_of_ne_nil w hne
  rw [Contains_eq, decodeRunes_ascii _ hascii, FindLongestUniqueSuffix_concat]
  simp only [isWord, nodeAt_concat]
  have hfst := suffixLoop_fst init t.root []
  cases hl : suffixLoop t.root [] init with
  | none =>
    rw [hl] at hfst
    rw [← hfst]
    exact ⟨[], rfl, fun _ => rfl⟩
  | some r =>
    obtain ⟨cur, acc⟩ := r
    rw [hl] at hfst
    rw [← hfst]
    simp only [Option.map_some', Option.some_bind]
    cases hg : mapGet cur.children l with
    | none => exact ⟨[], rfl, fun _ => rfl⟩
    | some fin =>
      simp only
      cases hlast : fin.last with
      | false => exact ⟨[], by simp, fun _ => rfl⟩
      | true =>
        by_cases hc : mapLen fin.children > 0
        · exact ⟨[], by simp [hc], fun _ => rfl⟩
        · exact ⟨acc ++ encoderune l, by simp [hc], fun h => by simp at h⟩

theorem decoderune_lt_runeSelf (b : Nat) (rest : GoString)
    (h : (decoderune (b :: rest)).1 < runeSelf) : b < runeSelf := by
  by_contra hb
  revert h
  simp only [decoderune, if_neg hb]
  split_ifs with h2 h3 h4
  · split
    · split_ifs with h5
      · simp only [runeSelf, rune1Max] at *; omega
      · simp [runeError, runeSelf]
    · simp [runeError, runeSelf]
  · split
    · split_ifs with h5
      · simp only [runeSelf, rune2Max] at *; omega
      · simp [runeError, runeSelf]
    · simp [runeError, runeSelf]
  · split
    · split_ifs with h5
      · simp only [runeSelf, rune3Max] at *; omega
      · simp [runeError, runeSelf]
    · simp [runeError, runeSelf]
  · simp [runeError, runeSelf]

/-- A string whose characters are those of an ASCII string is that string. -/
theorem eq_of_decodeRunes_eq_ascii (w : GoString) : ∀ v : GoString,
    IsASCII w → decodeRunes v = w → v = w := by
  induction w with
  | nil =>
    intro v _ h
    cases v with
    | nil => rfl
    | cons b rest => rw [decodeRunes_cons] at h; simp at h
  | cons c w ih =>
    intro v hw h
    cases v with
    | nil => simp [decodeRunes_nil] at h
    | cons b rest =>
      have h1 := h
      rw [decodeRunes_cons] at h1
      have hc : (decoderune (b :: rest)).1 = c := (List.cons.inj h1).1
      have hb : b < runeSelf := by
        apply decoderune_lt_runeSelf b rest
        rw [hc]; exact hw c (List.mem_cons_self _ _)
      rw [decodeRunes_cons_ascii b rest hb] at h
      obtain ⟨e1, e2⟩ := List.cons.inj h
      rw [e1, ih rest (fun x hx => hw x (List.mem_cons_of_mem _ hx)) e2]

/-- In a built trie an ASCII word is stored exactly when it was inserted. -/
theorem contains_build_ascii (ws : List GoString) (w : GoString) (hascii : IsASCII w) :
    Contains (build ws) w = true ↔ w ∈ ws := by
  rw [Contains_eq, isWord_build, decodeRunes_ascii _ hascii]
  constructor
  · rintro ⟨v, hv, hdec⟩
    rw [← eq_of_decodeRunes_eq_ascii w v hascii hdec]; exact hv
  · intro h
    exact ⟨w, h, decodeRunes_ascii _ hascii⟩

/-! ## Appending an ASCII byte -/

theorem decoderune_concat_ascii (b0 : Nat) (rest : GoString) (b : Nat) (hb : b < runeSelf) :
    decoderune (b0 :: (rest ++ [b])) = decoderune (b0 :: rest) := by
  have hnc : isCont b = false := by
    simp only [isCont, locb, runeSelf, Bool.and_eq_false_iff, decide_eq_false_iff_not] at *
    omega
  rcases rest with _ | ⟨b1, _ | ⟨b2, _ | ⟨b3, rest⟩⟩⟩ <;>
    simp [decoderune, hnc]

theorem decoderune_width_le (b0 : Nat) (rest : GoString) :
    (decoderune (b0 :: rest)).2 ≤ rest.length + 1 := by
  rcases rest with _ | ⟨b1, _ | ⟨b2, _ | ⟨b3, rest⟩⟩⟩ <;>
    simp only [decoderune] <;> split_ifs <;> simp

theorem decodeRunes_concat_ascii_aux (b : Nat) (hb : b < runeSelf) (n : Nat) :
    ∀ s : GoString, s.length ≤ n → decodeRunes (s ++ [b]) = decodeRunes s ++ [b] := by
  induction n with
  | zero =>
    intro s hs
    have : s = [] := List.length_eq_zero.mp (Nat.le_zero.mp hs)
    subst this
    rw [List.nil_append, decodeRunes_cons_ascii b [] hb]; rfl
  | succ n ih =>
    intro s hs
    cases s with
    | nil => rw [List.nil_append, decodeRunes_cons_ascii b [] hb]; rfl
    | cons b0 rest =>
      rw [List.cons_append, decodeRunes_cons, decodeRunes_cons b0 rest,
        decoderune_concat_ascii b0 rest b hb]
      have hw := decoderune_width_le b0 rest
      rw [List.drop_append_of_le_length (by omega)]
      rw [ih _ (by simp only [List.length_drop, List.length_cons] at *; omega)]
      rfl

/-- Appending an ASCII byte to any string appends one rune. -/
theorem decodeRunes_concat_ascii (s : GoString) (b : Nat) (hb : b < runeSelf) :
    decodeRunes (s ++ [b]) = decodeRunes s ++ [b] :=
  decodeRunes_concat_ascii_aux b hb s.length s (le_refl _)

/-! ## Keys of the maps -/

theorem mapGet_of_mem_nodup (m : runeMap) (c : Nat) (child : runeNode)
    (hmem : (c, child) ∈ m) (hnd : (mapKeys m).Nodup) : mapGet m c = some child := by
  induction m with
  | nil => simp at hmem
  | cons e rest ih =>
    obtain ⟨letter, node⟩ := e
    simp only [mapKeys, List.map_cons, List.nodup_cons] at hnd
    rcases List.mem_cons.mp hmem with h | h
    · obtain ⟨h1, h2⟩ := Prod.mk.inj h
      subst h1; subst h2
      simp [mapGet]
    · have hne : letter ≠ c := by
        intro e
        subst e
        exact hnd.1 (List.mem_map.mpr ⟨(letter, child), h, rfl⟩)
      simp only [mapGet, if_neg hne]
      exact ih h hnd.2

theorem mem_of_mapGet (m : runeMap) (c : Nat) (child : runeNode)
    (h : mapGet m c = some child) : (c, child) ∈ m := by
  induction m with
  | nil => simp [mapGet] at h
  | cons e rest ih =>
    obtain ⟨letter, node⟩ := e
    by_cases hc : letter = c
    · subst hc
      simp only [mapGet, if_true, Option.some.injEq] at h
      subst h
      exact List.mem_cons_self _ _
    · simp only [mapGet, if_neg hc] at h
      exact List.mem_cons_of_mem _ (ih h)

theorem mem_mapKeys_set (m : runeMap) (k : Nat) (v : runeNode) (c : Nat) :
    c ∈ mapKeys (mapSet m k v) ↔ c ∈ mapKeys m ∨ c = k := by
  induction m with
  | nil => simp [mapSet, mapKeys]
  | cons e rest ih =>
    obtain ⟨letter, node⟩ := e
    by_cases hk : letter = k
    · subst hk
      simp only [mapSet, if_true, mapKeys, List.map_cons, List.mem_cons]
      tauto
    · simp only [mapKeys] at ih
      simp only [mapSet, if_neg hk, mapKeys, List.map_cons, List.mem_cons, ih]
      tauto

theorem nodup_mapKeys_set (m : runeMap) (k : Nat) (v : runeNode)
    (h : (mapKeys m).Nodup) : (mapKeys (mapSet m k v)).Nodup := by
  induction m with
  | nil => simp [mapSet, mapKeys]
  | cons e rest ih =>
    obtain ⟨letter, node⟩ := e
    by_cases hk : letter = k
    · subst hk
      simpa [mapSet, mapKeys] using h
    · have h2 : letter ∉ mapKeys rest ∧ (mapKeys rest).Nodup := by
        simpa [mapKeys] using h
      have h3 := ih h2.2
      have h4 : letter ∉ mapKeys (mapSet rest k v) := by
        rw [mem_mapKeys_set]
        rintro (h5 | h5)
        · exact h2.1 h5
        · exact hk h5
      simp only [mapSet, if_neg hk]
      simp only [mapKeys, List.map_cons, List.nodup_cons] at h3 h4 ⊢
      exact ⟨h4, h3⟩

theorem KeysNodup_emptyNode : KeysNodup emptyNode := by
  intro p m h
  cases p with
  | nil =>
    rw [nodeAt_nil] at h
    cases h
    simp [emptyNode, mapKeys]
  | cons c p => rw [nodeAt_emptyNode_cons] at h; cases h

theorem KeysNodup_child (n child : runeNode) (c : Nat) (h : KeysNodup n)
    (hg : mapGet n.children c = some child) : KeysNodup child := by
  intro p m hp
  apply h (c :: p) m
  rw [nodeAt_cons_some _ _ _ _ hg]; exact hp

theorem KeysNodup_insertLoop (w : List Nat) : ∀ (n : runeNode) (ex : Bool),
    KeysNodup n → KeysNodup (insertLoop n ex w).1 := by
  induction w with
  | nil =>
    intro n ex hn p m hp
    cases p with
    | nil =>
      rw [insertLoop_nil, nodeAt_nil] at hp
      cases hp
      exact hn [] n rfl
    | cons c p => exact hn (c :: p) m hp
  | cons l rest ih =>
    intro n ex hn p m hp
    cases p with
    | nil =>
      rw [nodeAt_nil] at hp
      cases hp
      have h0 := hn [] n rfl
      cases h : mapGet n.children l with
      | none =>
        rw [insertLoop_cons_none _ _ _ _ h]
        exact nodup_mapKeys_set _ _ _ h0
      | some k =>
        rw [insertLoop_cons_some _ _ _ _ _ h]
        exact nodup_mapKeys_set _ _ _ h0
    | cons c p =>
      by_cases hc : l = c
      · subst hc
        obtain ⟨k, ex2, hk, hcase⟩ := nodeAt_insertLoop_cons_same n ex l rest p
        rw [hk] at hp
        rcases hcase with hg | ⟨_, hke⟩
        · exact ih k ex2 (KeysNodup_child n k l hn hg) p m hp
        · subst hke
          exact ih emptyNode ex2 KeysNodup_emptyNode p m hp
      · rw [nodeAt_insertLoop_cons_ne _ _ _ _ _ _ hc] at hp
        exact hn (c :: p) m hp

theorem KeysNodup_foldl (ws : List GoString) : ∀ t : runeTrie,
    KeysNodup t.root → KeysNodup (ws.foldl (fun t w => (Insert t w).1) t).root := by
  induction ws with
  | nil => intro t h; exact h
  | cons w ws ih =>
    intro t h
    rw [List.foldl_cons]
    apply ih
    rw [Insert_root]
    exact KeysNodup_insertLoop _ _ _ h

theorem KeysNodup_build (ws : List GoString) : KeysNodup (build ws).root :=
  KeysNodup_foldl ws NewRuneTrie KeysNodup_emptyNode

theorem KeysNodup_nodeAt (n m : runeNode) (p : List Nat) (h : KeysNodup n)
    (hp : nodeAt n p = some m) : KeysNodup m := by
  intro q k hq
  apply h (p ++ q) k
  rw [nodeAt_append, hp]; exact hq

/-! ## The words `search` collects -/

mutual
theorem searchNode_sound : ∀ (n : runeNode) (r : Nat) (pre : List Nat) (x : GoString),
    KeysNodup n → x ∈ searchNode n r pre →
      ∃ q, isWord n q = true ∧ x = slicerunetostring (pre ++ r :: q)
  | .mk children last, r, pre, x, hn, hx => by
    simp only [searchNode, List.mem_append] at hx
    rcases hx with hx | hx
    · by_cases hl : last = true
      · rw [if_pos hl] at hx
        refine ⟨[], ?_, ?_⟩
        · simp [isWord, nodeAt, hl]
        · simpa using hx
      · rw [if_neg hl] at hx
        simp at hx
    · have hkeys : (mapKeys children).Nodup := hn [] _ rfl
      obtain ⟨c, child, q, hmem, hw, hxe⟩ :=
        searchChildren_sound children (pre ++ [r]) x
          (fun c child hmem =>
            KeysNodup_child _ child c hn (mapGet_of_mem_nodup children c child hmem hkeys))
          hx
      refine ⟨c :: q, ?_, ?_⟩
      · have hg : mapGet (runeNode.mk children last).children c = some child :=
          mapGet_of_mem_nodup children c child hmem hkeys
        simp only [isWord] at hw ⊢
        rw [nodeAt_cons_some _ _ _ _ hg]
        exact hw
      · rw [hxe]; simp
theorem searchChildren_sound : ∀ (cs : List (Nat × runeNode)) (newPre : List Nat)
    (x : GoString), (∀ c child, (c, child) ∈ cs → KeysNodup child) →
      x ∈ searchChildren cs newPre →
      ∃ c child q, (c, child) ∈ cs ∧ isWord child q = true
        ∧ x = slicerunetostring (newPre ++ c :: q)
  | [], _, x, _, hx => by simp [searchChildren] at hx
  | (c, child) :: rest, newPre, x, hk, hx => by
    simp only [searchChildren, List.mem_append] at hx
    rcases hx with hx | hx
    · obtain ⟨q, hq, hxe⟩ :=
        searchNode_sound child c newPre x (hk c child (List.mem_cons_self _ _)) hx
      exact ⟨c, child, q, List.mem_cons_self _ _, hq, hxe⟩
    · obtain ⟨c2, child2, q, hmem, hq, hxe⟩ :=
        searchChildren_sound rest newPre x
          (fun c2 ch2 h => hk c2 ch2 (List.mem_cons_of_mem _ h)) hx
      exact ⟨c2, child2, q, List.mem_cons_of_mem _ hmem, hq, hxe⟩
end

theorem searchChildren_mem (cs : List (Nat × runeNode)) (newPre : List Nat) (x : GoString)
    (c : Nat) (child : runeNode) (hmem : (c, child) ∈ cs)
    (hx : x ∈ searchNode child c newPre) : x ∈ searchChildren cs newPre := by
  induction cs with
  | nil => simp at hmem
  | cons e rest ih =>
    obtain ⟨c2, child2⟩ := e
    simp only [searchChildren, List.mem_append]
    rcases List.mem_cons.mp hmem with h | h
    · obtain ⟨h1, h2⟩ := Prod.mk.inj h
      subst h1; subst h2
      exact Or.inl hx
    · exact Or.inr (ih h)

theorem searchNode_complete (q : List Nat) : ∀ (n : runeNode) (r : Nat) (pre : List Nat),
    isWord n q = true → slicerunetostring (pre ++ r :: q) ∈ searchNode n r pre := by
  induction q with
  | nil =>
    intro n r pre h
    obtain ⟨children, last⟩ := n
    simp only [isWord, nodeAt, last_mk] at h
    simp [searchNode, h]
  | cons c q ih =>
    intro n r pre h
    cases hg : mapGet n.children c with
    | none => simp [isWord, nodeAt_cons_none _ _ _ hg] at h
    | some child =>
      simp only [isWord] at h
      rw [nodeAt_cons_some _ _ _ _ hg] at h
      have h2 := ih child c (pre ++ [r]) h
      obtain ⟨children, last⟩ := n
      simp only [searchNode, List.mem_append]
      refine Or.inr (searchChildren_mem children _ _ c child (mem_of_mapGet _ _ _ hg) ?_)
      simpa using h2

theorem mem_searchNode (n : runeNode) (r : Nat) (pre : List Nat) (x : GoString)
    (hn : KeysNodup n) :
    x ∈ searchNode n r pre ↔ ∃ q, isWord n q = true ∧ x = slicerunetostring (pre ++ r :: q) :=
  ⟨searchNode_sound n r pre x hn, fun ⟨q, hq, hx⟩ => hx ▸ searchNode_complete q n r pre hq⟩

theorem nodeByPrefixLoop_snd (p : List Nat) : ∀ (n m : runeNode) (r : Nat),
    nodeAt n p = some m → (nodeByPrefixLoop n r p).2 = (p.getLast?).getD r := by
  induction p with
  | nil => intro n m r _; rfl
  | cons c p ih =>
    intro n m r h
    cases hg : mapGet n.children c with
    | none => rw [nodeAt_cons_none _ _ _ hg] at h; cases h
    | some k =>
      rw [nodeAt_cons_some _ _ _ _ hg] at h
      simp only [nodeByPrefixLoop, hg]
      rw [ih k m c h]
      cases p with
      | nil => rfl
      | cons d p =>
        have : ∀ a : Nat, ((d :: p).getLast?).getD a = (d :: p).getLast (by simp) := by
          intro a; rw [List.getLast?_eq_getLast _ (by simp)]; rfl
        rw [List.getLast?_cons_cons, this c, this r]

/-- The strings `SearchByPrefix` returns for a prefix that ends in an ASCII byte:
the encodings of the terminal paths that extend the path of the prefix. -/
theorem mem_SearchByPrefix_ascii_last (t : runeTrie) (init : GoString) (b : Nat)
    (hb : b < runeSelf) (hk : KeysNodup t.root) :
    ∃ res, SearchByPrefix t (init ++ [b]) = some res ∧ ∀ x, x ∈ res ↔
      ∃ q, isWord t.root (decodeRunes (init ++ [b]) ++ q) = true
        ∧ x = slicerunetostring (decodeRunes (init ++ [b]) ++ q) := by
  have htake : (init ++ [b]).take ((init ++ [b]).length - 1) = init := by simp
  have hsbp : SearchByPrefix t (init ++ [b]) =
      some (search (nodeByPrefix t (init ++ [b])).1 (nodeByPrefix t (init ++ [b])).2
        (decodeRunes init)) := by
    unfold SearchByPrefix
    rw [if_neg (by simp), htake]
  refine ⟨_, hsbp, ?_⟩
  intro x
  simp only [nodeByPrefix, nodeByPrefixLoop_fst]
  rw [decodeRunes_concat_ascii init b hb]
  cases hnode : nodeAt t.root (decodeRunes init ++ [b]) with
  | none =>
    simp only [search, List.not_mem_nil, false_iff]
    rintro ⟨q, hq, _⟩
    simp only [isWord] at hq
    rw [nodeAt_append, hnode] at hq
    simp at hq
  | some m =>
    have hlast : (decodeRunes init ++ [b]).getLast? = some b := by simp
    rw [nodeByPrefixLoop_snd _ _ m 0 hnode, hlast]
    simp only [search, Option.getD_some]
    rw [mem_searchNode m b _ x (KeysNodup_nodeAt _ _ _ hk hnode)]
    constructor
    · rintro ⟨q, hq, hx⟩
      refine ⟨q, ?_, by simpa using hx⟩
      simp only [isWord] at hq ⊢
      rw [nodeAt_append, hnode]; exact hq
    · rintro ⟨q, hq, hx⟩
      refine ⟨q, ?_, by simpa using hx⟩
      simp only [isWord] at hq ⊢
      rw [nodeAt_append, hnode] at hq; exact hq

/-! ## Common prefixes -/

theorem lcpLen_nil_left (b : List Nat) : lcpLen [] b = 0 := by simp [lcpLen]

theorem lcpLen_nil_right (a : List Nat) : lcpLen a [] = 0 := by
  cases a <;> simp [lcpLen]

theorem lcpLen_cons_cons_ne (x y : Nat) (a b : List Nat) (h : x ≠ y) :
    lcpLen (x :: a) (y :: b) = 0 := by simp [lcpLen, h]

theorem lcpLen_le_left (a : List Nat) : ∀ b, lcpLen a b ≤ a.length := by
  induction a with
  | nil => intro b; simp [lcpLen]
  | cons x a ih =>
    intro b
    cases b with
    | nil => simp [lcpLen]
    | cons y b =>
      simp only [lcpLen, List.length_cons]
      split_ifs
      · exact Nat.succ_le_succ (ih b)
      · omega

theorem lcpLen_append_left (p a b : List Nat) :
    lcpLen (p ++ a) (p ++ b) = p.length + lcpLen a b := by
  induction p with
  | nil => simp
  | cons x p ih =>
    rw [List.cons_append, List.cons_append]
    simp only [lcpLen, if_true, List.length_cons]
    rw [ih]; omega

theorem lcpLen_decomp (a : List Nat) : ∀ b, ∃ p a2 b2,
    a = p ++ a2 ∧ b = p ++ b2 ∧ p.length = lcpLen a b ∧ lcpLen a2 b2 = 0 := by
  induction a with
  | nil => intro b; exact ⟨[], [], b, rfl, rfl, by simp [lcpLen], by simp [lcpLen]⟩
  | cons x a ih =>
    intro b
    cases b with
    | nil => exact ⟨[], x :: a, [], rfl, rfl, by simp [lcpLen], by simp [lcpLen]⟩
    | cons y b =>
      by_cases hxy : x = y
      · subst hxy
        obtain ⟨p, a2, b2, ha, hb, hl, hz⟩ := ih b
        refine ⟨x :: p, a2, b2, by rw [ha]; rfl, by rw [hb]; rfl, ?_, hz⟩
        simp only [lcpLen, if_true, List.length_cons, hl]
      · exact ⟨[], x :: a, y :: b, rfl, rfl, by simp [lcpLen, hxy], by simp [lcpLen, hxy]⟩

theorem lcpLen_eq_zero (a b : List Nat) (h : lcpLen a b = 0) :
    a = [] ∨ b = [] ∨ ∃ x a2 y b2, a = x :: a2 ∧ b = y :: b2 ∧ x ≠ y := by
  cases a with
  | nil => exact Or.inl rfl
  | cons x a =>
    cases b with
    | nil => exact Or.inr (Or.inl rfl)
    | cons y b =>
      refine Or.inr (Or.inr ⟨x, a, y, b, rfl, rfl, ?_⟩)
      intro hxy
      simp [lcpLen, hxy] at h

theorem foldr_max_eq (xs : List Nat) (K : Nat) (hle : ∀ x ∈ xs, x ≤ K)
    (hat : K = 0 ∨ K ∈ xs) : xs.foldr max 0 = K := by
  induction xs generalizing K with
  | nil =>
    rcases hat with h | h
    · simp [h]
    · simp at h
  | cons x xs ih =>
    simp only [List.foldr_cons]
    have hx : x ≤ K := hle x (List.mem_cons_self _ _)
    have hbound : ∀ M, (∀ y ∈ xs, y ≤ M) → xs.foldr max 0 ≤ M := by
      intro M hM
      clear ih hle hat
      induction xs with
      | nil => simp
      | cons y ys ih2 =>
        simp only [List.foldr_cons]
        exact max_le (hM y (List.mem_cons_self _ _))
          (ih2 (fun z hz => hM z (List.mem_cons_of_mem _ hz)))
    have hrest : xs.foldr max 0 ≤ K :=
      hbound K (fun y hy => hle y (List.mem_cons_of_mem _ hy))
    rcases hat with h | h
    · subst h
      have : x = 0 := Nat.le_zero.mp hx
      subst this
      simpa using hrest
    · rcases List.mem_cons.mp h with h | h
      · subst h
        exact max_eq_left hrest
      · have := ih K (fun y hy => hle y (List.mem_cons_of_mem _ hy)) (Or.inr h)
        rw [this]
        exact max_eq_right hx

/-! ## Tries that hold a given set of words -/

theorem Represents_build (ws : List GoString) :
    Represents (build ws).root (ws.map decodeRunes) where
  word := by
    intro p
    rw [isWord_build]
    simp [List.mem_map]
  path := by
    intro p
    rw [hasPath_build]
    simp [List.mem_map]
  keys := KeysNodup_build ws

theorem hasPath_concat_iff (root n : runeNode) (q : List Nat) (c : Nat)
    (hn : nodeAt root q = some n) :
    hasPath root (q ++ [c]) = true ↔ ∃ k, mapGet n.children c = some k := by
  simp only [hasPath]
  rw [nodeAt_concat, hn]
  simp only [Option.some_bind]
  cases mapGet n.children c <;> simp

theorem mapLen_gt_one_of_two (m : runeMap) (c y : Nat) (k1 k2 : runeNode)
    (h1 : mapGet m c = some k1) (h2 : mapGet m y = some k2) (hne : c ≠ y) :
    1 < mapLen m := by
  have m1 := mem_of_mapGet m c k1 h1
  have m2 := mem_of_mapGet m y k2 h2
  unfold mapLen
  rcases m with _ | ⟨e1, _ | ⟨e2, rest⟩⟩
  · simp at m1
  · simp only [List.mem_singleton] at m1 m2
    rw [← m1] at m2
    exact absurd (Prod.mk.inj m2).1.symm hne
  · simp

theorem exists_key_ne (m : runeMap) (y : Nat) (hlen : 1 < mapLen m)
    (hnd : (mapKeys m).Nodup) : ∃ c k, c ≠ y ∧ mapGet m c = some k := by
  unfold mapLen at hlen
  rcases m with _ | ⟨⟨c1, k1⟩, _ | ⟨⟨c2, k2⟩, rest⟩⟩
  · simp at hlen
  · simp at hlen
  · have hne : c1 ≠ c2 := by
      intro e
      simp [mapKeys, e] at hnd
    by_cases h1 : c1 = y
    · refine ⟨c2, k2, fun e => hne (h1.trans e.symm), ?_⟩
      exact mapGet_of_mem_nodup _ _ _ (by simp) hnd
    · exact ⟨c1, k1, h1, mapGet_of_mem_nodup _ _ _ (by simp) hnd⟩

theorem exists_key_of_pos (m : runeMap) (hlen : 0 < mapLen m) :
    ∃ c k, mapGet m c = some k := by
  unfold mapLen at hlen
  rcases m with _ | ⟨⟨c1, k1⟩, rest⟩
  · simp at hlen
  · exact ⟨c1, k1, by simp [mapGet]⟩

theorem mapLen_pos_of_get (m : runeMap) (c : Nat) (k : runeNode)
    (h : mapGet m c = some k) : 0 < mapLen m := by
  unfold mapLen
  cases m with
  | nil => simp [mapGet] at h
  | cons e rest => simp

/-- The reset test of the loop at the node after `q`, an inner node of the path
of `w`: the node has more than one child or is terminal exactly when another
word shares exactly the characters `q` with `w`. -/
theorem reset_iff_shares (root : runeNode) (U : List (List Nat)) (hR : Represents root U)
    (w q rest : List Nat) (y : Nat) (n : runeNode) (hw : w ∈ U)
    (hsplit : w = q ++ y :: rest) (hn : nodeAt root q = some n) :
    (mapLen n.children > 1 ∨ n.last = true) ↔ SharesExactly U w q.length := by
  constructor
  · rintro (hlen | hlast)
    · obtain ⟨c, k, hcy, hg⟩ := exists_key_ne n.children y hlen (hR.keys q n hn)
      have hp : hasPath root (q ++ [c]) = true :=
        (hasPath_concat_iff root n q c hn).mpr ⟨k, hg⟩
      rcases (hR.path _).mp hp with h | ⟨u, hu, hpre⟩
      · simp at h
      · obtain ⟨t, ht⟩ := hpre
        refine ⟨u, hu, ?_, ?_⟩
        · intro e
          rw [← ht, hsplit, List.append_assoc] at e
          have e2 := List.append_cancel_left e
          simp only [List.singleton_append, List.cons.injEq] at e2
          exact hcy e2.1
        · rw [← ht, hsplit, List.append_assoc, lcpLen_append_left]
          simp [lcpLen, Ne.symm hcy]
    · have hq : q ∈ U := (hR.word q).mp (by simp [isWord, hn, hlast])
      refine ⟨q, hq, ?_, ?_⟩
      · intro e
        have := congrArg List.length e
        rw [hsplit] at this
        simp at this
      · have := lcpLen_append_left q (y :: rest) []
        rw [lcpLen_nil_right, List.append_nil] at this
        rw [hsplit]; exact this
  · rintro ⟨u, hu, hne, hl⟩
    obtain ⟨p, a2, b2, ha, hb, hlen, hz⟩ := lcpLen_decomp w u
    rw [hl] at hlen
    have hpq : q = p ∧ y :: rest = a2 := by
      rw [hsplit] at ha
      exact List.append_inj ha hlen.symm
    obtain ⟨hqp, ha2⟩ := hpq
    subst hqp
    subst ha2
    rcases lcpLen_eq_zero _ _ hz with h | h | ⟨x, a3, c, b3, h1, h2, hxc⟩
    · cases h
    · subst h
      right
      have hqU : q ∈ U := by
        rw [List.append_nil] at hb
        rw [← hb]; exact hu
      have : isWord root q = true := (hR.word q).mpr hqU
      simpa [isWord, hn] using this
    · left
      obtain ⟨hx, ha3⟩ := List.cons.inj h1
      subst hx
      subst ha3
      subst h2
      have hpc : hasPath root (q ++ [c]) = true :=
        (hR.path _).mpr (Or.inr ⟨u, hu, by rw [hb]; exact ⟨b3, by simp⟩⟩)
      have hpy : hasPath root (q ++ [y]) = true :=
        (hR.path _).mpr (Or.inr ⟨w, hw, by rw [hsplit]; exact ⟨rest, by simp⟩⟩)
      obtain ⟨k1, hk1⟩ := (hasPath_concat_iff root n q c hn).mp hpc
      obtain ⟨k2, hk2⟩ := (hasPath_concat_iff root n q y hn).mp hpy
      exact mapLen_gt_one_of_two _ c y k1 k2 hk1 hk2 (Ne.symm hxc)

/-- The last node of the path of `w` has a child exactly when `w` is a strict
prefix of another word. -/
theorem children_iff_shares (root : runeNode) (U : List (List Nat)) (hR : Represents root U)
    (w : List Nat) (f : runeNode) (hf : nodeAt root w = some f) :
    0 < mapLen f.children ↔ SharesExactly U w w.length := by
  constructor
  · intro hlen
    obtain ⟨c, k, hg⟩ := exists_key_of_pos f.children hlen
    have hp : hasPath root (w ++ [c]) = true :=
      (hasPath_concat_iff root f w c hf).mpr ⟨k, hg⟩
    rcases (hR.path _).mp hp with h | ⟨u, hu, hpre⟩
    · simp at h
    · obtain ⟨t, ht⟩ := hpre
      refine ⟨u, hu, ?_, ?_⟩
      · intro e
        have := congrArg List.length ht
        rw [e] at this
        simp at this
      · have := lcpLen_append_left w [] ([c] ++ t)
        rw [lcpLen_nil_left, List.append_nil] at this
        rw [← ht, List.append_assoc]; exact this
  · rintro ⟨u, hu, hne, hl⟩
    obtain ⟨p, a2, b2, ha, hb, hlen, hz⟩ := lcpLen_decomp w u
    rw [hl] at hlen
    have hpw : p = w ∧ a2 = [] := by
      have h1 : (p ++ a2).length = p.length := by rw [← ha, hlen]
      have h2 : a2 = [] := by
        rw [List.length_append] at h1
        exact List.length_eq_zero.mp (by omega)
      rw [h2, List.append_nil] at ha
      exact ⟨ha.symm, h2⟩
    obtain ⟨hp1, hp2⟩ := hpw
    subst hp1
    cases b2 with
    | nil => rw [List.append_nil] at hb; exact absurd hb hne
    | cons c b3 =>
      have hpc : hasPath root (p ++ [c]) = true :=
        (hR.path _).mpr (Or.inr ⟨u, hu, by rw [hb]; exact ⟨b3, by simp⟩⟩)
      obtain ⟨k, hk⟩ := (hasPath_concat_iff root f p c hf).mp hpc
      exact mapLen_pos_of_get _ c k hk

theorem encoderune_ascii (b : Nat) (hb : b < runeSelf) : encoderune b = [b] := by
  unfold encoderune
  simp only [runeSelf, rune1Max] at *
  rw [if_pos (by omega)]

/-- The loop of `FindLongestUniqueSuffix` on the path of a stored ASCII word `w`:
started after the characters `q` with the suffix `q.drop a`, it ends at the node
before the last character with the suffix that drops `a2` characters, where no
other word shares more than `a2` and at most all but the last characters of
`w`, and some other word shares exactly `a2` unless `a2` is 0. -/
theorem suffixLoop_spec (root : runeNode) (U : List (List Nat)) (hR : Represents root U)
    (w : List Nat) (l : Nat) (hw : w ∈ U) (hascii : ∀ b ∈ w, b < runeSelf) :
    ∀ (bs q : List Nat) (a : Nat) (n : runeNode),
      w = q ++ bs ++ [l] → nodeAt root q = some n → a ≤ q.length →
      (∀ u ∈ U, u ≠ w → lcpLen w u ≤ a ∨ q.length < lcpLen w u) →
      (a = 0 ∨ SharesExactly U w a) →
      ∃ cur a2, suffixLoop n (q.drop a) bs = some (cur, (q ++ bs).drop a2)
        ∧ nodeAt root (q ++ bs) = some cur ∧ a2 ≤ (q ++ bs).length
        ∧ (∀ u ∈ U, u ≠ w → lcpLen w u ≤ a2 ∨ (q ++ bs).length < lcpLen w u)
        ∧ (a2 = 0 ∨ SharesExactly U w a2) := by
  intro bs
  induction bs with
  | nil =>
    intro q a n _ hn ha hinv hat
    refine ⟨n, a, ?_, ?_, ?_, ?_, hat⟩
    · simp [suffixLoop]
    · simpa using hn
    · simpa using ha
    · simpa using hinv
  | cons b bs ih =>
    intro q a n hsplit hn ha hinv hat
    have hsplit2 : w = (q ++ [b]) ++ bs ++ [l] := by rw [hsplit]; simp
    have hbw : b < runeSelf := hascii b (by rw [hsplit]; simp)
    have hpath : hasPath root (q ++ [b]) = true :=
      (hR.path _).mpr (Or.inr ⟨w, hw, by rw [hsplit2]; exact ⟨bs ++ [l], by simp⟩⟩)
    obtain ⟨n2, hg⟩ := (hasPath_concat_iff root n q b hn).mp hpath
    have hn2 : nodeAt root (q ++ [b]) = some n2 := by
      rw [nodeAt_concat, hn]; exact hg
    obtain ⟨y, rest, hyr⟩ : ∃ y rest, bs ++ [l] = y :: rest := by
      cases bs with
      | nil => exact ⟨l, [], rfl⟩
      | cons y bs2 => exact ⟨y, bs2 ++ [l], rfl⟩
    have hsplit3 : w = (q ++ [b]) ++ y :: rest := by
      rw [hsplit2, List.append_assoc, hyr]
    have hreset := reset_iff_shares root U hR w (q ++ [b]) rest y n2 hw hsplit3 hn2
    have hlenq : (q ++ [b]).length = q.length + 1 := by simp
    rw [hlenq] at hreset
    have hfinal : q ++ b :: bs = (q ++ [b]) ++ bs := by simp
    by_cases hr : mapLen n2.children > 1 ∨ n2.last = true
    · have hdrop : (q ++ [b]).drop (q.length + 1) = [] := by
        apply List.drop_eq_nil_of_le; rw [hlenq]
      obtain ⟨cur, a2, h1, h2, h3, h4, h5⟩ :=
        ih (q ++ [b]) (q.length + 1) n2 hsplit2 hn2 (by rw [hlenq])
          (fun u _ _ => by rw [hlenq]; omega) (Or.inr (hreset.mp hr))
      rw [hdrop] at h1
      refine ⟨cur, a2, ?_, ?_, ?_, ?_, h5⟩
      · simp only [suffixLoop, hg, if_pos hr]
        rw [hfinal]; exact h1
      · rw [hfinal]; exact h2
      · rw [hfinal]; exact h3
      · rw [hfinal]; exact h4
    · have hdrop : (q ++ [b]).drop a = q.drop a ++ encoderune b := by
        rw [encoderune_ascii b hbw, List.drop_append_of_le_length ha]
      have hns : ¬ SharesExactly U w (q.length + 1) := fun h => hr (hreset.mpr h)
      obtain ⟨cur, a2, h1, h2, h3, h4, h5⟩ :=
        ih (q ++ [b]) a n2 hsplit2 hn2 (by rw [hlenq]; omega)
          (fun u hu hne => by
            rcases hinv u hu hne with h | h
            · exact Or.inl h
            · rw [hlenq]
              by_cases he : lcpLen w u = q.length + 1
              · exact absurd ⟨u, hu, hne, he⟩ hns
              · right; omega)
          hat
      rw [hdrop] at h1
      refine ⟨cur, a2, ?_, ?_, ?_, ?_, h5⟩
      · simp only [suffixLoop, hg, if_neg hr]
        rw [hfinal]; exact h1
      · rw [hfinal]; exact h2
      · rw [hfinal]; exact h3
      · rw [hfinal]; exact h4

/-- On a trie that holds the words `U`, for a stored non-empty ASCII word,
`FindLongestUniqueSuffix` returns the word without its first `K` characters,
`K` being the greatest number of leading characters another word shares
with it. -/
theorem FindLongestUniqueSuffix_spec (t : runeTrie) (U : List (List Nat))
    (hR : Represents t.root U) (init : GoString) (l : Nat) (hw : init ++ [l] ∈ U)
    (hascii : IsASCII (init ++ [l])) :
    ∃ K, FindLongestUniqueSuffix t (init ++ [l]) = some ((init ++ [l]).drop K, true)
      ∧ (∀ u ∈ U, u ≠ init ++ [l] → lcpLen (init ++ [l]) u ≤ K)
      ∧ (K = 0 ∨ SharesExactly U (init ++ [l]) K) := by
  obtain ⟨cur, a2, h1, h2, h3, h4, h5⟩ :=
    suffixLoop_spec t.root U hR (init ++ [l]) l hw hascii init [] 0 t.root (by simp) rfl
      (le_refl _) (fun u _ _ => by simp only [List.length_nil]; omega) (Or.inl rfl)
  simp only [List.drop_zero, List.nil_append] at h1 h2 h3 h4
  have hpath : hasPath t.root (init ++ [l]) = true :=
    (hR.path _).mpr (Or.inr ⟨init ++ [l], hw, List.prefix_refl _⟩)
  obtain ⟨f, hg⟩ := (hasPath_concat_iff t.root cur init l h2).mp hpath
  have hf : nodeAt t.root (init ++ [l]) = some f := by
    rw [nodeAt_concat, h2]; exact hg
  have hlast : f.last = true := by
    have := (hR.word _).mpr hw
    simpa [isWord, hf] using this
  have hchild := children_iff_shares t.root U hR (init ++ [l]) f hf
  rw [FindLongestUniqueSuffix_concat, h1]
  simp only [hg, hlast]
  by_cases hc : 0 < mapLen f.children
  · refine ⟨(init ++ [l]).length, ?_, fun u _ _ => lcpLen_le_left _ _, Or.inr (hchild.mp hc)⟩
    simp [hc]
  · have hns : ¬ SharesExactly U (init ++ [l]) (init ++ [l]).length :=
      fun h => hc (hchild.mpr h)
    refine ⟨a2, ?_, ?_, h5⟩
    · have : (init ++ [l]).drop a2 = init.drop a2 ++ encoderune l := by
        rw [encoderune_ascii l (hascii l (by simp)), List.drop_append_of_le_length h3]
      rw [this]
      simp [hc]
    · intro u hu hne
      rcases h4 u hu hne with h | h
      · exact h
      · exfalso
        apply hns
        refine ⟨u, hu, hne, ?_⟩
        have := lcpLen_le_left (init ++ [l]) u
        simp only [List.length_append, List.length_singleton] at this ⊢
        omega

/-- A string whose characters start with an ASCII string starts with it. -/
theorem isPrefix_of_decodeRunes_ascii (w : GoString) : ∀ (v : GoString) (t : List Nat),
    IsASCII w → decodeRunes v = w ++ t → w <+: v := by
  induction w with
  | nil => intro v t _ _; exact List.nil_prefix
  | cons c w ih =>
    intro v t hw h
    cases v with
    | nil => simp [decodeRunes_nil] at h
    | cons b rest =>
      have h1 := h
      rw [decodeRunes_cons, List.cons_append] at h1
      have hc : (decoderune (b :: rest)).1 = c := (List.cons.inj h1).1
      have hb : b < runeSelf := by
        apply decoderune_lt_runeSelf b rest
        rw [hc]; exact hw c (List.mem_cons_self _ _)
      rw [decodeRunes_cons_ascii b rest hb, List.cons_append] at h
      obtain ⟨e1, e2⟩ := List.cons.inj h
      subst e1
      exact (List.cons_prefix_cons).mpr
        ⟨rfl, ih rest t (fun x hx => hw x (List.mem_cons_of_mem _ hx)) e2⟩

/-- In a built trie, for a stored non-empty ASCII word, the number of characters
`FindLongestUniqueSuffix` drops is `maxShared`. -/
theorem FindLongestUniqueSuffix_build (ws : List GoString) (w : GoString) (hmem : w ∈ ws)
    (hne : w ≠ []) (hascii : IsASCII w) :
    FindLongestUniqueSuffix (build ws) w = some (w.drop (maxShared ws w), true)
      ∧ (∀ v ∈ ws, v ≠ w → lcpLen (decodeRunes w) (decodeRunes v) ≤ maxShared ws w)
      ∧ (maxShared ws w = 0
          ∨ ∃ v ∈ ws, v ≠ w ∧ lcpLen (decodeRunes w) (decodeRunes v) = maxShared ws w) := by
  obtain ⟨init, l, rfl⟩ := exists_concat_of_ne_nil w hne
  have hdec := decodeRunes_ascii _ hascii
  have hU : init ++ [l] ∈ ws.map decodeRunes := List.mem_map.mpr ⟨_, hmem, hdec⟩
  obtain ⟨K, hK, hle, hat⟩ :=
    FindLongestUniqueSuffix_spec (build ws) _ (Represents_build ws) init l hU hascii
  have hne2 : ∀ v, v ≠ init ++ [l] → decodeRunes v ≠ init ++ [l] :=
    fun v hv e => hv (eq_of_decodeRunes_eq_ascii _ v hascii e)
  have hle2 : ∀ v ∈ ws, v ≠ init ++ [l] → lcpLen (init ++ [l]) (decodeRunes v) ≤ K :=
    fun v hv hvw => hle _ (List.mem_map.mpr ⟨v, hv, rfl⟩) (hne2 v hvw)
  have hat2 : K = 0 ∨ ∃ v ∈ ws, v ≠ init ++ [l] ∧ lcpLen (init ++ [l]) (decodeRunes v) = K := by
    rcases hat with h | ⟨u, hu, hune, hl⟩
    · exact Or.inl h
    · obtain ⟨v, hv, rfl⟩ := List.mem_map.mp hu
      exact Or.inr ⟨v, hv, fun e => hune (by rw [e, hdec]), hl⟩
  have hmax : maxShared ws (init ++ [l]) = K := by
    unfold maxShared
    rw [hdec]
    apply foldr_max_eq
    · intro x hx
      obtain ⟨v, hv, rfl⟩ := List.mem_map.mp hx
      have hv2 := List.mem_filter.mp hv
      exact hle2 v hv2.1 (by simpa using hv2.2)
    · rcases hat2 with h | ⟨v, hv, hvw, hl⟩
      · exact Or.inl h
      · refine Or.inr (List.mem_map.mpr ⟨v, List.mem_filter.mpr ⟨hv, by simpa using hvw⟩, hl⟩)
  rw [hmax, hdec]
  exact ⟨hK, hle2, hat2⟩

/-! ## Inserting a stored word again -/

theorem mapSet_of_get (m : runeMap) (k : Nat) (v : runeNode) (h : mapGet m k = some v) :
    mapSet m k v = m := by
  induction m with
  | nil => simp [mapGet] at h
  | cons e rest ih =>
    obtain ⟨letter, node⟩ := e
    by_cases hk : letter = k
    · subst hk
      simp only [mapGet, if_true, Option.some.injEq] at h
      subst h
      simp [mapSet]
    · simp only [mapGet, if_neg hk] at h
      simp only [mapSet, if_neg hk, ih h]

theorem insertLoop_of_isWord (w : List Nat) : ∀ (n : runeNode) (ex : Bool),
    isWord n w = true → (insertLoop n ex w).1 = n := by
  induction w with
  | nil =>
    intro n ex h
    obtain ⟨children, last⟩ := n
    simp only [isWord, nodeAt, last_mk] at h
    simp [insertLoop, h]
  | cons l rest ih =>
    intro n ex h
    cases hg : mapGet n.children l with
    | none => simp [isWord, nodeAt_cons_none _ _ _ hg] at h
    | some m =>
      simp only [isWord] at h
      rw [nodeAt_cons_some _ _ _ _ hg] at h
      rw [insertLoop_cons_some _ _ _ _ _ hg, ih m ex h, mapSet_of_get _ _ _ hg]
      obtain ⟨children, last⟩ := n
      rfl

/-! ## Every path leads to a word -/

theorem isWord_append_of_nodeAt (n m : runeNode) (q q2 : List Nat)
    (h : nodeAt n q = some m) : isWord n (q ++ q2) = isWord m q2 := by
  simp only [isWord]
  rw [nodeAt_append, h]
  rfl

theorem Live_emptyNode : Live emptyNode := by
  intro q m hq h
  cases q with
  | nil => exact absurd rfl hq
  | cons c q => rw [nodeAt_emptyNode_cons] at h; cases h

theorem Live_insertLoop (w : List Nat) (n : runeNode) (ex : Bool) (hn : Live n) :
    Live (insertLoop n ex w).1 := by
  intro q m hq h
  have hpath : hasPath (insertLoop n ex w).1 q = true := by simp [hasPath, h]
  rw [hasPath_insertLoop] at hpath
  rcases Bool.or_eq_true _ _ ▸ hpath with h1 | h1
  · simp only [hasPath] at h1
    cases h0 : nodeAt n q with
    | none => rw [h0] at h1; cases h1
    | some m0 =>
      obtain ⟨q2, hq2⟩ := hn q m0 hq h0
      refine ⟨q2, ?_⟩
      rw [← isWord_append_of_nodeAt _ m q q2 h, isWord_insertLoop,
        isWord_append_of_nodeAt _ m0 q q2 h0, hq2]
      rfl
  · obtain ⟨s, hs⟩ := of_decide_eq_true h1
    refine ⟨s, ?_⟩
    rw [← isWord_append_of_nodeAt _ m q s h, isWord_insertLoop, hs]
    simp

theorem Live_foldl (ws : List GoString) : ∀ t : runeTrie,
    Live t.root → Live (ws.foldl (fun t w => (Insert t w).1) t).root := by
  induction ws with
  | nil => intro t h; exact h
  | cons w ws ih =>
    intro t h
    rw [List.foldl_cons]
    apply ih
    rw [Insert_root]
    exact Live_insertLoop _ _ _ h

theorem Live_build (ws : List GoString) : Live (build ws).root :=
  Live_foldl ws NewRuneTrie Live_emptyNode

theorem decodeRunes_ne_nil (p : GoString) (h : p ≠ []) : decodeRunes p ≠ [] := by
  cases p with
  | nil => exact absurd rfl h
  | cons b rest => rw [decodeRunes_cons]; simp

theorem StartsWith_build_iff (ws : List GoString) (p : GoString) :
    StartsWith (build ws) p = true
      ↔ decodeRunes p = [] ∨ ∃ w ∈ ws, decodeRunes p <+: decodeRunes w := by
  rw [StartsWith_eq, hasPath_build]

/-! ## Counting insertions -/

theorem size_after_insert_aux (t : runeTrie) (w : GoString) :
    Size (Insert t w).1 = if (Insert t w).2 = true then Size t else Size t + 1 := rfl

theorem build_concat (ws : List GoString) (w : GoString) :
    build (ws ++ [w]) = (Insert (build ws) w).1 := by
  simp [build, List.foldl_append]

theorem Size_build_concat (ws : List GoString) (w : GoString) :
    Size (build (ws ++ [w]))
      = Size (build ws) + if StartsWith (build ws) w = true then 0 else 1 := by
  rw [build_concat, size_after_insert_aux]
  rw [Insert_snd]
  split_ifs <;> rfl

theorem dedup_length_concat (ws : List GoString) (w : GoString) :
    (ws ++ [w]).dedup.length = ws.dedup.length + if w ∈ ws then 0 else 1 := by
  rw [← List.card_toFinset, ← List.card_toFinset, List.toFinset_append]
  simp only [List.toFinset_cons, List.toFinset_nil, insert_emptyc_eq]
  by_cases h : w ∈ ws
  · rw [if_pos h, Finset.union_eq_left.mpr (by simpa using h)]
    rfl
  · rw [if_neg h, Finset.union_comm, ← Finset.insert_eq,
      Finset.card_insert_of_not_mem (by simpa using h)]

/-! ## `search` under any iteration order -/

mutual
theorem searchNodeOrd_perm (ord : List Nat → List (List GoString) → List (List GoString))
    (hord : IsOrder ord) : ∀ (n : runeNode) (r : Nat) (pre : List Nat),
      (searchNodeOrd ord n r pre).Perm (searchNode n r pre)
  | .mk children last, r, pre => by
    simp only [searchNodeOrd, searchNode]
    apply List.Perm.append_left
    exact ((hord _ _).flatten).trans (searchBlocksOrd_perm ord hord children (pre ++ [r]))
theorem searchBlocksOrd_perm (ord : List Nat → List (List GoString) → List (List GoString))
    (hord : IsOrder ord) : ∀ (cs : List (Nat × runeNode)) (newPre : List Nat),
      ((searchBlocksOrd ord cs newPre).flatten).Perm (searchChildren cs newPre)
  | [], _ => by simp [searchBlocksOrd, searchChildren]
  | (c, child) :: rest, newPre => by
    simp only [searchBlocksOrd, searchChildren, List.flatten_cons]
    exact (searchNodeOrd_perm ord hord child c newPre).append
      (searchBlocksOrd_perm ord hord rest newPre)
end

mutual
theorem searchNodeOrd_id : ∀ (n : runeNode) (r : Nat) (pre : List Nat),
    searchNodeOrd (fun _ l => l) n r pre = searchNode n r pre
  | .mk children last, r, pre => by
    simp only [searchNodeOrd, searchNode]
    rw [searchBlocksOrd_id children (pre ++ [r])]
theorem searchBlocksOrd_id : ∀ (cs : List (Nat × runeNode)) (newPre : List Nat),
    (searchBlocksOrd (fun _ l => l) cs newPre).flatten = searchChildren cs newPre
  | [], _ => by simp [searchBlocksOrd, searchChildren]
  | (c, child) :: rest, newPre => by
    simp only [searchBlocksOrd, searchChildren, List.flatten_cons]
    rw [searchNodeOrd_id child c newPre, searchBlocksOrd_id rest newPre]
end

/-- The model order of `SearchByPrefix` is one of the iteration orders. -/
theorem SearchByPrefixOrd_id (t : runeTrie) (p : GoString) :
    SearchByPrefixOrd (fun _ l => l) t p = SearchByPrefix t p := by
  unfold SearchByPrefixOrd SearchByPrefix
  split_ifs
  · rfl
  · congr 1
    cases (nodeByPrefix t p).1 with
    | none => rfl
    | some n => exact searchNodeOrd_id n _ _

/-- Under every iteration order `SearchByPrefix` returns a rearrangement of
what it returns in map order, and panics on the same input. -/
theorem SearchByPrefixOrd_perm (ord : List Nat → List (List GoString) → List (List GoString))
    (hord : IsOrder ord) (t : runeTrie) (p : GoString) :
    (SearchByPrefixOrd ord t p = none ∧ SearchByPrefix t p = none)
      ∨ ∃ res1 res2, SearchByPrefixOrd ord t p = some res1 ∧ SearchByPrefix t p = some res2
          ∧ res1.Perm res2 := by
  unfold SearchByPrefixOrd SearchByPrefix
  split_ifs
  · exact Or.inl ⟨rfl, rfl⟩
  · refine Or.inr ⟨_, _, rfl, rfl, ?_⟩
    cases (nodeByPrefix t p).1 with
    | none => exact List.Perm.refl _
    | some n => exact searchNodeOrd_perm ord hord n _ _

/-! ## The terminal paths below a node -/

mutual
theorem searchNode_eq_map : ∀ (n : runeNode) (r : Nat) (pre : List Nat),
    searchNode n r pre
      = (terminalPaths n).map (fun q => slicerunetostring (pre ++ r :: q))
  | .mk children last, r, pre => by
    simp only [searchNode, terminalPaths, List.map_append]
    rw [searchChildren_eq_map children (pre ++ [r])]
    congr 1
    · split_ifs <;> simp
    · apply List.map_congr_left
      intro q _
      simp
theorem searchChildren_eq_map : ∀ (cs : List (Nat × runeNode)) (newPre : List Nat),
    searchChildren cs newPre
      = (terminalPathsChildren cs).map (fun q => slicerunetostring (newPre ++ q))
  | [], _ => rfl
  | (c, child) :: rest, newPre => by
    simp only [searchChildren, terminalPathsChildren, List.map_append, List.map_map]
    rw [searchNode_eq_map child c newPre, searchChildren_eq_map rest newPre]
    rfl
end

theorem terminalPathsChildren_head (cs : List (Nat × runeNode)) (q : List Nat)
    (h : q ∈ terminalPathsChildren cs) : ∃ c q2, q = c :: q2 ∧ c ∈ mapKeys cs := by
  induction cs with
  | nil => simp [terminalPathsChildren] at h
  | cons e rest ih =>
    obtain ⟨c, child⟩ := e
    simp only [terminalPathsChildren, List.mem_append, List.mem_map] at h
    rcases h with ⟨q2, _, rfl⟩ | h
    · exact ⟨c, q2, rfl, by simp [mapKeys]⟩
    · obtain ⟨c2, q2, hq, hc⟩ := ih h
      exact ⟨c2, q2, hq, by simp only [mapKeys, List.map_cons, List.mem_cons] at hc ⊢; exact Or.inr hc⟩

theorem KeysNodup_of_mem (n : runeNode) (hn : KeysNodup n) (c : Nat) (child : runeNode)
    (hmem : (c, child) ∈ n.children) : KeysNodup child :=
  KeysNodup_child n child c hn (mapGet_of_mem_nodup n.children c child hmem (hn [] n rfl))

mutual
theorem terminalPaths_nodup : ∀ n : runeNode, KeysNodup n → (terminalPaths n).Nodup
  | .mk children last, hn => by
    simp only [terminalPaths]
    apply List.Nodup.append
    · split_ifs <;> simp
    · exact terminalPathsChildren_nodup children
        (fun c child hmem => KeysNodup_of_mem _ hn c child hmem) (hn [] _ rfl)
    · intro q hq1 hq2
      obtain ⟨c, q2, hq, _⟩ := terminalPathsChildren_head children q hq2
      subst hq
      split_ifs at hq1 <;> simp at hq1
theorem terminalPathsChildren_nodup : ∀ cs : List (Nat × runeNode),
    (∀ c child, (c, child) ∈ cs → KeysNodup child) → (mapKeys cs).Nodup →
      (terminalPathsChildren cs).Nodup
  | [], _, _ => List.nodup_nil
  | (c, child) :: rest, hk, hnd => by
    simp only [terminalPathsChildren]
    have hnd2 : c ∉ mapKeys rest ∧ (mapKeys rest).Nodup := by
      simpa [mapKeys] using hnd
    apply List.Nodup.append
    · apply List.Nodup.map
      · intro a b hab
        exact (List.cons.inj hab).2
      · exact terminalPaths_nodup child (hk c child (List.mem_cons_self _ _))
    · exact terminalPathsChildren_nodup rest
        (fun c2 ch2 h => hk c2 ch2 (List.mem_cons_of_mem _ h)) hnd2.2
    · intro q hq1 hq2
      obtain ⟨q1, _, rfl⟩ := List.mem_map.mp hq1
      obtain ⟨c2, q2, hq, hc2⟩ := terminalPathsChildren_head rest _ hq2
      obtain ⟨e1, _⟩ := List.cons.inj hq
      subst e1
      exact hnd2.1 hc2
end

mutual
theorem terminalPaths_sound : ∀ (n : runeNode) (q : List Nat),
    KeysNodup n → q ∈ terminalPaths n → isWord n q = true
  | .mk children last, q, hn, hq => by
    simp only [terminalPaths, List.mem_append] at hq
    rcases hq with hq | hq
    · by_cases hl : last = true
      · rw [if_pos hl] at hq
        simp only [List.mem_singleton] at hq
        subst hq
        simp [isWord, nodeAt, hl]
      · rw [if_neg hl] at hq
        simp at hq
    · obtain ⟨c, child, q2, hmem, hqe, hw⟩ :=
        terminalPathsChildren_sound children q
          (fun c child hmem => KeysNodup_of_mem _ hn c child hmem) hq
      subst hqe
      have hg : mapGet (runeNode.mk children last).children c = some child :=
        mapGet_of_mem_nodup children c child hmem (hn [] _ rfl)
      simp only [isWord] at hw ⊢
      rw [nodeAt_cons_some _ _ _ _ hg]
      exact hw
theorem terminalPathsChildren_sound : ∀ (cs : List (Nat × runeNode)) (q : List Nat),
    (∀ c child, (c, child) ∈ cs → KeysNodup child) → q ∈ terminalPathsChildren cs →
      ∃ c child q2, (c, child) ∈ cs ∧ q = c :: q2 ∧ isWord child q2 = true
  | [], q, _, hq => by simp [terminalPathsChildren] at hq
  | (c, child) :: rest, q, hk, hq => by
    simp only [terminalPathsChildren, List.mem_append, List.mem_map] at hq
    rcases hq with ⟨q2, hq2, rfl⟩ | hq
    · exact ⟨c, child, q2, List.mem_cons_self _ _, rfl,
        terminalPaths_sound child q2 (hk c child (List.mem_cons_self _ _)) hq2⟩
    · obtain ⟨c2, child2, q2, hmem, hqe, hw⟩ :=
        terminalPathsChildren_sound rest q
          (fun c2 ch2 h => hk c2 ch2 (List.mem_cons_of_mem _ h)) hq
      exact ⟨c2, child2, q2, List.mem_cons_of_mem _ hmem, hqe, hw⟩
end

theorem terminalPathsChildren_mem (cs : List (Nat × runeNode)) (c : Nat) (child : runeNode)
    (q : List Nat) (hmem : (c, child) ∈ cs) (hq : q ∈ terminalPaths child) :
    c :: q ∈ terminalPathsChildren cs := by
  induction cs with
  | nil => simp at hmem
  | cons e rest ih =>
    obtain ⟨c2, child2⟩ := e
    simp only [terminalPathsChildren, List.mem_append, List.mem_map]
    rcases List.mem_cons.mp hmem with h | h
    · obtain ⟨h1, h2⟩ := Prod.mk.inj h
      subst h1; subst h2
      exact Or.inl ⟨q, hq, rfl⟩
    · exact Or.inr (ih h)

theorem terminalPaths_complete (q : List Nat) : ∀ n : runeNode,
    isWord n q = true → q ∈ terminalPaths n := by
  induction q with
  | nil =>
    intro n h
    obtain ⟨children, last⟩ := n
    simp only [isWord, nodeAt, last_mk] at h
    simp [terminalPaths, h]
  | cons c q ih =>
    intro n h
    cases hg : mapGet n.children c with
    | none => simp [isWord, nodeAt_cons_none _ _ _ hg] at h
    | some child =>
      simp only [isWord] at h
      rw [nodeAt_cons_some _ _ _ _ hg] at h
      have h2 := ih child h
      obtain ⟨children, last⟩ := n
      simp only [terminalPaths, List.mem_append]
      exact Or.inr (terminalPathsChildren_mem children c child q (mem_of_mapGet _ _ _ hg) h2)

theorem mem_terminalPaths (n : runeNode) (q : List Nat) (hn : KeysNodup n) :
    q ∈ terminalPaths n ↔ isWord n q = true :=
  ⟨terminalPaths_sound n q hn, terminalPaths_complete q n⟩

theorem decodeRunes_slicerunetostring (rs : List Nat) (h : ∀ r ∈ rs, ValidRune r) :
    decodeRunes (slicerunetostring rs) = rs := by
  have := decodeRunes_slicerunetostring_append rs [] h
  rw [List.append_nil, decodeRunes_nil, List.append_nil] at this
  exact this

theorem slicerunetostring_injective (a b : List Nat) (ha : ∀ r ∈ a, ValidRune r)
    (hb : ∀ r ∈ b, ValidRune r) (h : slicerunetostring a = slicerunetostring b) : a = b := by
  rw [← decodeRunes_slicerunetostring a ha, ← decodeRunes_slicerunetostring b hb, h]

/-- In a built trie, for every non-empty prefix, `SearchByPrefix` returns a
sequence, and in map order it has no duplicates. -/
theorem SearchByPrefix_nodup (ws : List GoString) (p : GoString) (hne : p ≠ []) :
    ∃ res, SearchByPrefix (build ws) p = some res ∧ res.Nodup := by
  have hlen : ¬ p.length = 0 := fun h => hne (List.length_eq_zero.mp h)
  have hsbp : SearchByPrefix (build ws) p =
      some (search (nodeByPrefix (build ws) p).1 (nodeByPrefix (build ws) p).2
        (decodeRunes (p.take (p.length - 1)))) := by
    unfold SearchByPrefix
    rw [if_neg hlen]
  refine ⟨_, hsbp, ?_⟩
  generalize (nodeByPrefix (build ws) p).2 = r
  generalize decodeRunes (p.take (p.length - 1)) = pre
  simp only [nodeByPrefix, nodeByPrefixLoop_fst]
  cases hnode : nodeAt (build ws).root (decodeRunes p) with
  | none => exact List.nodup_nil
  | some m =>
    have hkm : KeysNodup m := KeysNodup_nodeAt _ _ _ (KeysNodup_build ws) hnode
    have hvalidq : ∀ q ∈ terminalPaths m, ∀ x ∈ q, ValidRune x := by
      intro q hq x hx
      have hq2 : isWord (build ws).root (decodeRunes p ++ q) = true := by
        rw [isWord_append_of_nodeAt _ m _ q hnode]
        exact (mem_terminalPaths m q hkm).mp hq
      obtain ⟨w, _, hw⟩ := (isWord_build ws _).mp hq2
      apply decodeRunes_valid w
      rw [hw]; exact List.mem_append_right _ hx
    simp only [search]
    rw [searchNode_eq_map]
    apply List.Nodup.map_on _ (terminalPaths_nodup m hkm)
    intro x hx y hy hxy
    have h3 : slicerunetostring (pre ++ [r]) ++ slicerunetostring x
        = slicerunetostring (pre ++ [r]) ++ slicerunetostring y := by
      rw [← slicerunetostring_append, ← slicerunetostring_append]
      simpa using hxy
    exact slicerunetostring_injective x y (hvalidq x hx) (hvalidq y hy)
      (List.append_cancel_left h3)

/-- In a built trie, for every non-empty well-formed prefix, the sequence
`SearchByPrefix` returns in map order has no duplicates and as many elements as
there are distinct inserted words that start with the prefix. -/
theorem SearchByPrefix_nodup_length (ws : List GoString) (p : GoString) (hne : p ≠ [])
    (hws : ∀ w ∈ ws, ValidUTF8 w) (hp : ValidUTF8 p) :
    ∃ res, SearchByPrefix (build ws) p = some res ∧ res.Nodup
      ∧ res.length = (ws.dedup.filter (fun w => decide (p <+: w))).length := by
  have hlen : ¬ p.length = 0 := fun h => hne (List.length_eq_zero.mp h)
  have hsbp : SearchByPrefix (build ws) p =
      some (search (nodeByPrefix (build ws) p).1 (nodeByPrefix (build ws) p).2
        (decodeRunes (p.take (p.length - 1)))) := by
    unfold SearchByPrefix
    rw [if_neg hlen]
  refine ⟨_, hsbp, ?_⟩
  generalize (nodeByPrefix (build ws) p).2 = r
  generalize decodeRunes (p.take (p.length - 1)) = pre
  simp only [nodeByPrefix, nodeByPrefixLoop_fst]
  have hpref : ∀ w ∈ ws, (p <+: w ↔ decodeRunes p <+: decodeRunes w) :=
    fun w hw => isPrefix_iff_decodeRunes_isPrefix p w hp (hws w hw)
  cases hnode : nodeAt (build ws).root (decodeRunes p) with
  | none =>
    refine ⟨List.nodup_nil, ?_⟩
    have hnil : ws.dedup.filter (fun w => decide (p <+: w)) = [] := by
      apply List.filter_eq_nil_iff.mpr
      intro w hw hpw
      have hw2 : w ∈ ws := List.mem_dedup.mp hw
      have hpath : hasPath (build ws).root (decodeRunes p) = true :=
        (hasPath_build ws _).mpr
          (Or.inr ⟨w, hw2, (hpref w hw2).mp (of_decide_eq_true hpw)⟩)
      simp [hasPath, hnode] at hpath
    rw [hnil]; rfl
  | some m =>
    have hkm : KeysNodup m := KeysNodup_nodeAt _ _ _ (KeysNodup_build ws) hnode
    have hmem : ∀ q, q ∈ terminalPaths m ↔ ∃ w ∈ ws, decodeRunes w = decodeRunes p ++ q := by
      intro q
      rw [mem_terminalPaths m q hkm, ← isWord_append_of_nodeAt _ m _ q hnode, isWord_build]
    have hvalidq : ∀ q ∈ terminalPaths m, ∀ x ∈ q, ValidRune x := by
      intro q hq x hx
      obtain ⟨w, _, hw⟩ := (hmem q).mp hq
      apply decodeRunes_valid w
      rw [hw]; exact List.mem_append_right _ hx
    simp only [search]
    rw [searchNode_eq_map]
    constructor
    · apply List.Nodup.map_on _ (terminalPaths_nodup m hkm)
      intro x hx y hy hxy
      have h3 : slicerunetostring (pre ++ [r]) ++ slicerunetostring x
          = slicerunetostring (pre ++ [r]) ++ slicerunetostring y := by
        rw [← slicerunetostring_append, ← slicerunetostring_append]
        simpa using hxy
      exact slicerunetostring_injective x y (hvalidq x hx) (hvalidq y hy)
        (List.append_cancel_left h3)
    · rw [List.length_map]
      have hnd2 : (ws.dedup.filter (fun w => decide (p <+: w))).Nodup :=
        (List.nodup_dedup ws).filter _
      have hdrop : ∀ w ∈ ws.dedup.filter (fun w => decide (p <+: w)),
          w ∈ ws ∧ decodeRunes w
            = decodeRunes p ++ (decodeRunes w).drop (decodeRunes p).length := by
        intro w hw
        obtain ⟨hw1, hw2⟩ := List.mem_filter.mp hw
        have hw3 : w ∈ ws := List.mem_dedup.mp hw1
        obtain ⟨s, hs⟩ := (hpref w hw3).mp (of_decide_eq_true hw2)
        refine ⟨hw3, ?_⟩
        rw [← hs, List.drop_left]
      have hnd3 : ((ws.dedup.filter (fun w => decide (p <+: w))).map
          (fun w => (decodeRunes w).drop (decodeRunes p).length)).Nodup := by
        apply List.Nodup.map_on _ hnd2
        intro x hx y hy hxy
        obtain ⟨hx1, hx2⟩ := hdrop x hx
        obtain ⟨hy1, hy2⟩ := hdrop y hy
        simp only at hxy
        apply eq_of_decodeRunes_eq x y (hws x hx1) (hws y hy1)
        rw [hx2, hy2, hxy]
      have hperm : (terminalPaths m).Perm
          ((ws.dedup.filter (fun w => decide (p <+: w))).map
            (fun w => (decodeRunes w).drop (decodeRunes p).length)) := by
        apply (List.perm_ext_iff_of_nodup (terminalPaths_nodup m hkm) hnd3).mpr
        intro q
        rw [hmem q, List.mem_map]
        constructor
        · rintro ⟨w, hw, hdec⟩
          refine ⟨w, List.mem_filter.mpr ⟨List.mem_dedup.mpr hw, ?_⟩, ?_⟩
          · apply decide_eq_true
            apply (hpref w hw).mpr
            rw [hdec]; exact List.prefix_append _ _
          · rw [hdec, List.drop_left]
        · rintro ⟨w, hw, hq⟩
          obtain ⟨hw1, hw2⟩ := hdrop w hw
          rw [hq] at hw2
          exact ⟨w, hw1, hw2⟩
      rw [hperm.length_eq, List.length_map]

mutual
theorem countLast_eq_length : ∀ n : runeNode, countLast n = (terminalPaths n).length
  | .mk children last => by
    simp only [countLast, terminalPaths, List.length_append]
    rw [countLastChildren_eq_length children]
    split_ifs <;> rfl
theorem countLastChildren_eq_length : ∀ cs : List (Nat × runeNode),
    countLastChildren cs = (terminalPathsChildren cs).length
  | [] => rfl
  | (c, child) :: rest => by
    simp only [countLastChildren, terminalPathsChildren, List.length_append, List.length_map]
    rw [countLast_eq_length child, countLastChildren_eq_length rest]
end

/-- The number of strings `SearchByPrefix` returns is the number of terminal nodes
in the subtree of the node of the prefix. -/
theorem SearchByPrefix_length_countLast (t : runeTrie) (p : GoString) (m : runeNode)
    (res : List GoString) (hm : (nodeByPrefix t p).1 = some m)
    (hres : SearchByPrefix t p = some res) : res.length = countLast m := by
  unfold SearchByPrefix at hres
  split_ifs at hres
  rw [hm] at hres
  simp only [search, Option.some.injEq] at hres
  rw [← hres, searchNode_eq_map, List.length_map, countLast_eq_length]

/-! ## Theorems: membership -/

/-- C1: for every trie `t` and every word `w`, after `Insert(w)` on `t`,
`Contains(w)` returns true. -/
theorem contains_after_insert (t : runeTrie) (w : GoString) :
    Contains (Insert t w).1 w = true := by
  rw [Contains_eq, Insert_root, isWord_insertLoop]
  simp

/-- C2, as stated, fails: after inserting the ill-formed string FF, `Contains`
is true for the string FE, which was not inserted (the `range` loop reads both
as the single character `U+FFFD`). -/
theorem contains_true_of_illformed_not_inserted :
    w_fe ∉ [w_ff] ∧ Contains (build [w_ff]) w_fe = true :=
  ⟨by decide, by decide⟩

/-- C2, amended: in a trie built from `NewRuneTrie()` by inserting the words of
`ws`, all well-formed UTF-8 strings, `Contains(v)` is false for every well-formed
UTF-8 word `v` that is not in `ws`; in particular after inserting cat, car,
cart, `Contains("ca")` is false. -/
theorem contains_false_of_not_inserted (ws : List GoString) (v : GoString)
    (hws : ∀ w ∈ ws, ValidUTF8 w) (hv : ValidUTF8 v) (hnot : v ∉ ws) :
    Contains (build ws) v = false
      ∧ Contains (build [w_cat, w_car, w_cart]) w_ca = false := by
  refine ⟨?_, by decide⟩
  rw [Contains_eq]
  cases h : isWord (build ws).root (decodeRunes v) with
  | false => rfl
  | true =>
    obtain ⟨w, hw, hdec⟩ := (isWord_build ws _).mp h
    have : w = v := eq_of_decodeRunes_eq w v (hws w hw) hv hdec
    exact absurd (this ▸ hw) hnot

theorem contains_false_of_not_inserted_witness :
    (∀ w ∈ [w_cat, w_car, w_cart], ValidUTF8 w) ∧ ValidUTF8 w_dog
      ∧ w_dog ∉ [w_cat, w_car, w_cart]
      ∧ Contains (build [w_cat, w_car, w_cart]) w_dog = false
      ∧ Contains (build [w_cat, w_car, w_cart]) w_ca = false :=
  ⟨by decide, by decide, by decide,
    contains_false_of_not_inserted [w_cat, w_car, w_cart] w_dog (by decide) (by decide)
      (by decide)⟩

/-- C4: on the trie that holds only cart, `Contains("car")` is false, yet
`Insert("car")` returns true: `Insert` reports that the path of the word
existed, not that the word was stored. -/
theorem insert_true_on_unstored_word :
    Contains (build [w_cart]) w_car = false
      ∧ (Insert (build [w_cart]) w_car).2 = true
      ∧ ∀ (t : runeTrie) (w : GoString), (Insert t w).2 = StartsWith t w :=
  ⟨by decide, by decide, Insert_snd⟩

/-- C5: after inserting cart and then car into a new trie, both words are
stored and the trie has two terminal nodes, yet `Size()` is 1. -/
theorem size_misses_word_on_existing_path :
    Size (build [w_cart, w_car]) = 1
      ∧ Contains (build [w_cart, w_car]) w_cart = true
      ∧ Contains (build [w_cart, w_car]) w_car = true
      ∧ w_cart ≠ w_car
      ∧ countLast (build [w_cart, w_car]).root = 2 :=
  ⟨by decide, by decide, by decide, by decide, by decide⟩

/-- C9: on every trie, `SearchByPrefix("")` panics (slice bounds out of range
in `prefix[:len(prefix)-1]`) instead of returning the stored words. -/
theorem searchByPrefix_empty_panics (t : runeTrie) : SearchByPrefix t [] = none := rfl

/-- C10: for every trie `t`, every word `w` and every prefix `p` of `w` (the
empty prefix and `w` itself included), `StartsWith(p)` returns true after
`Insert(w)`; `StartsWith("")` returns true on every trie, including a new empty
one.  A prefix is a leading part of the characters of `w`: the characters of `p`
start those of `w`, which covers every well-formed `p` that `w` starts with. -/
theorem startsWith_after_insert (t : runeTrie) (w p : GoString)
    (hp : decodeRunes p <+: decodeRunes w ∨ (ValidUTF8 p ∧ p <+: w)) :
    StartsWith (Insert t w).1 p = true
      ∧ StartsWith (Insert t w).1 [] = true
      ∧ StartsWith (Insert t w).1 w = true
      ∧ StartsWith t [] = true
      ∧ StartsWith NewRuneTrie [] = true := by
  have hp2 : decodeRunes p <+: decodeRunes w := by
    rcases hp with h | ⟨hv, s, rfl⟩
    · exact h
    · rw [decodeRunes_append_of_valid p s hv]
      exact List.prefix_append _ _
  refine ⟨?_, rfl, ?_, rfl, rfl⟩
  · rw [StartsWith_eq, Insert_root, hasPath_insertLoop]
    simp [hp2]
  · rw [StartsWith_eq, Insert_root, hasPath_insertLoop]
    simp

theorem startsWith_after_insert_witness :
    (decodeRunes w_ca <+: decodeRunes w_cart ∨ (ValidUTF8 w_ca ∧ w_ca <+: w_cart))
      ∧ StartsWith (Insert NewRuneTrie w_cart).1 w_ca = true
      ∧ StartsWith (Insert NewRuneTrie w_cart).1 [] = true
      ∧ StartsWith (Insert NewRuneTrie w_cart).1 w_cart = true
      ∧ StartsWith NewRuneTrie [] = true
      ∧ StartsWith NewRuneTrie [] = true :=
  ⟨Or.inl (by decide), startsWith_after_insert NewRuneTrie w_cart w_ca (Or.inl (by decide))⟩

/-! ## Theorems: `FindLongestUniqueSuffix` -/

/-- C6: in a trie built from `NewRuneTrie()` by inserting the words of `ws`,
for every non-empty word `w` of single-byte (ASCII) characters,
`FindLongestUniqueSuffix(w)` returns found = true exactly when `Contains(w)` is
true, which is exactly when `w` is in `ws`; when `w` is not a stored word it
returns `("", false)`, as for dog among car, cards, care. -/
theorem findLongestUniqueSuffix_found_iff_contains (ws : List GoString) (w : GoString)
    (hne : w ≠ []) (hascii : IsASCII w) :
    (∃ s, FindLongestUniqueSuffix (build ws) w = some (s, Contains (build ws) w))
      ∧ (Contains (build ws) w = true ↔ w ∈ ws)
      ∧ (w ∉ ws → FindLongestUniqueSuffix (build ws) w = some ([], false))
      ∧ FindLongestUniqueSuffix (build [w_car, w_cards, w_care]) w_dog = some ([], false) := by
  obtain ⟨s, hs, hempty⟩ := FindLongestUniqueSuffix_found (build ws) w hne hascii
  refine ⟨⟨s, hs⟩, contains_build_ascii ws w hascii, ?_, by decide⟩
  intro hnot
  have hc : Contains (build ws) w = false := by
    cases h : Contains (build ws) w with
    | false => rfl
    | true => exact absurd ((contains_build_ascii ws w hascii).mp h) hnot
  rw [hs, hc, hempty hc]

theorem findLongestUniqueSuffix_found_iff_contains_witness :
    w_cards ≠ [] ∧ IsASCII w_cards
      ∧ (∃ s, FindLongestUniqueSuffix (build [w_car, w_cards, w_care]) w_cards
          = some (s, Contains (build [w_car, w_cards, w_care]) w_cards))
      ∧ (Contains (build [w_car, w_cards, w_care]) w_cards = true
          ↔ w_cards ∈ [w_car, w_cards, w_care])
      ∧ (w_cards ∉ [w_car, w_cards, w_care]
          → FindLongestUniqueSuffix (build [w_car, w_cards, w_care]) w_cards = some ([], false))
      ∧ FindLongestUniqueSuffix (build [w_car, w_cards, w_care]) w_dog = some ([], false) :=
  ⟨by decide, by decide,
    findLongestUniqueSuffix_found_iff_contains [w_car, w_cards, w_care] w_cards (by decide)
      (by decide)⟩

/-- C7: in a trie built from `NewRuneTrie()` by inserting the words of `ws`,
for every stored non-empty word `w` of single-byte (ASCII) characters,
`FindLongestUniqueSuffix(w)` returns `(s, true)` where `s` is `w` with its first
`K` characters removed and `K = maxShared ws w` is the greatest length of a
common prefix of `w` with any other stored word (0 when there is none): no other
stored word shares more than `K` leading characters with `w`, some other stored
word shares exactly `K` unless `K` is 0, and `s` is non-empty whenever `w` is not
a prefix of another stored word; with car, cards, care stored, cards gives ds. -/
theorem findLongestUniqueSuffix_drops_shared_prefix (ws : List GoString) (w : GoString)
    (hmem : w ∈ ws) (hne : w ≠ []) (hascii : IsASCII w) :
    FindLongestUniqueSuffix (build ws) w = some (w.drop (maxShared ws w), true)
      ∧ (∀ v ∈ ws, v ≠ w → lcpLen (decodeRunes w) (decodeRunes v) ≤ maxShared ws w)
      ∧ (maxShared ws w = 0
          ∨ ∃ v ∈ ws, v ≠ w ∧ lcpLen (decodeRunes w) (decodeRunes v) = maxShared ws w)
      ∧ ((∀ v ∈ ws, v ≠ w → ¬ w <+: v) → w.drop (maxShared ws w) ≠ [])
      ∧ FindLongestUniqueSuffix (build [w_car, w_cards, w_care]) w_cards
          = some (w_ds, true) := by
  obtain ⟨h1, h2, h3⟩ := FindLongestUniqueSuffix_build ws w hmem hne hascii
  refine ⟨h1, h2, h3, ?_, by decide⟩
  intro hno hdrop
  have hlen : w.length ≤ maxShared ws w := List.drop_eq_nil_iff.mp hdrop
  have hpos : 0 < w.length := List.length_pos.mpr hne
  rcases h3 with h0 | ⟨v, hv, hvw, hl⟩
  · omega
  · rw [decodeRunes_ascii _ hascii] at hl
    obtain ⟨p, a2, b2, ha, hb, hpl, _⟩ := lcpLen_decomp w (decodeRunes v)
    have hle := lcpLen_le_left w (decodeRunes v)
    have hpw : p = w := by
      have h4 : p.length = w.length := by omega
      have h5 : (p ++ a2).length = p.length := by rw [← ha, h4]
      have h6 : a2 = [] := by
        rw [List.length_append] at h5
        exact List.length_eq_zero.mp (by omega)
      rw [h6, List.append_nil] at ha
      exact ha.symm
    rw [hpw] at hb
    exact hno v hv hvw (isPrefix_of_decodeRunes_ascii w v b2 hascii hb)

theorem findLongestUniqueSuffix_drops_shared_prefix_witness :
    w_cards ∈ [w_car, w_cards, w_care] ∧ w_cards ≠ [] ∧ IsASCII w_cards
      ∧ FindLongestUniqueSuffix (build [w_car, w_cards, w_care]) w_cards
          = some (w_cards.drop (maxShared [w_car, w_cards, w_care] w_cards), true)
      ∧ (∀ v ∈ [w_car, w_cards, w_care], v ≠ w_cards →
          lcpLen (decodeRunes w_cards) (decodeRunes v)
            ≤ maxShared [w_car, w_cards, w_care] w_cards)
      ∧ (maxShared [w_car, w_cards, w_care] w_cards = 0
          ∨ ∃ v ∈ [w_car, w_cards, w_care], v ≠ w_cards
              ∧ lcpLen (decodeRunes w_cards) (decodeRunes v)
                  = maxShared [w_car, w_cards, w_care] w_cards)
      ∧ ((∀ v ∈ [w_car, w_cards, w_care], v ≠ w_cards → ¬ w_cards <+: v)
          → w_cards.drop (maxShared [w_car, w_cards, w_care] w_cards) ≠ [])
      ∧ FindLongestUniqueSuffix (build [w_car, w_cards, w_care]) w_cards
          = some (w_ds, true) :=
  ⟨by decide, by decide, by decide,
    findLongestUniqueSuffix_drops_shared_prefix [w_car, w_cards, w_care] w_cards (by decide)
      (by decide) (by decide)⟩

/-- C8: on every trie, for every non-empty word `w` of single-byte (ASCII)
characters whose final node is terminal and has at least one child,
`FindLongestUniqueSuffix(w)` returns `("", true)`; in a built trie that is the
case of a stored word that is a strict prefix of another stored word, as for a
after inserting a and ab. -/
theorem findLongestUniqueSuffix_of_strict_prefix (t : runeTrie) (w : GoString)
    (fin : runeNode) (hne : w ≠ []) (hascii : IsASCII w)
    (hnode : (nodeByPrefix t w).1 = some fin) (hlast : fin.last = true)
    (hchild : 0 < mapLen fin.children) :
    FindLongestUniqueSuffix t w = some ([], true)
      ∧ (∀ (ws : List GoString) (v : GoString), w ∈ ws → v ∈ ws → v ≠ w → w <+: v →
          FindLongestUniqueSuffix (build ws) w = some ([], true))
      ∧ FindLongestUniqueSuffix (build [w_a, w_ab]) w_a = some ([], true) := by
  refine ⟨?_, ?_, by decide⟩
  · obtain ⟨init, l, rfl⟩ := exists_concat_of_ne_nil w hne
    simp only [nodeByPrefix, nodeByPrefixLoop_fst] at hnode
    rw [decodeRunes_ascii _ hascii, nodeAt_concat] at hnode
    have hfst := suffixLoop_fst init t.root []
    rw [FindLongestUniqueSuffix_concat]
    cases hl : suffixLoop t.root [] init with
    | none =>
      rw [hl] at hfst
      rw [← hfst] at hnode
      simp at hnode
    | some r =>
      obtain ⟨cur, acc⟩ := r
      rw [hl] at hfst
      rw [← hfst] at hnode
      simp only [Option.map_some', Option.some_bind] at hnode
      simp [hnode, hlast, hchild]
  · intro ws v hw hv hvw hpre
    obtain ⟨h1, h2, _⟩ := FindLongestUniqueSuffix_build ws w hw hne hascii
    have hle := h2 v hv hvw
    obtain ⟨s, rfl⟩ := hpre
    rw [decodeRunes_append_of_valid w s (validUTF8_of_ascii w hascii),
      decodeRunes_ascii _ hascii] at hle
    have := lcpLen_append_left w [] (decodeRunes s)
    rw [lcpLen_nil_left, List.append_nil] at this
    rw [this] at hle
    rw [h1, List.drop_eq_nil_of_le (by omega)]

theorem findLongestUniqueSuffix_of_strict_prefix_witness :
    w_a ≠ [] ∧ IsASCII w_a
      ∧ (nodeByPrefix (build [w_a, w_ab]) w_a).1 = some (.mk [(98, .mk [] true)] true)
      ∧ (runeNode.mk [(98, .mk [] true)] true).last = true
      ∧ 0 < mapLen (runeNode.mk [(98, .mk [] true)] true).children
      ∧ FindLongestUniqueSuffix (build [w_a, w_ab]) w_a = some ([], true)
      ∧ (∀ (ws : List GoString) (v : GoString), w_a ∈ ws → v ∈ ws → v ≠ w_a → w_a <+: v →
          FindLongestUniqueSuffix (build ws) w_a = some ([], true))
      ∧ FindLongestUniqueSuffix (build [w_a, w_ab]) w_a = some ([], true) :=
  ⟨by decide, by decide, rfl, rfl, by decide,
    findLongestUniqueSuffix_of_strict_prefix (build [w_a, w_ab]) w_a
      (.mk [(98, .mk [] true)] true) (by decide) (by decide) rfl rfl (by decide)⟩

/-! ## Theorems: `SearchByPrefix` -/

/-- C3, as stated, fails: after inserting the ill-formed string FF a, the prefix
FF a ends in an ASCII character and is a literal prefix of the inserted word,
yet `SearchByPrefix` returns the single string `U+FFFD` a, which is not an
inserted word. -/
theorem searchByPrefix_illformed_not_inserted :
    (0x61 : Nat) < runeSelf ∧ w_ff_a = [0xFF] ++ [0x61]
      ∧ SearchByPrefix (build [w_ff_a]) w_ff_a = some [w_fffd_a]
      ∧ w_fffd_a ∉ [w_ff_a] ∧ w_ff_a ∈ [w_ff_a] ∧ w_ff_a <+: w_ff_a
      ∧ ¬ (∀ x, x ∈ [w_fffd_a] ↔ x ∈ [w_ff_a] ∧ w_ff_a <+: x) := by
  refine ⟨by decide, by decide, by decide, by decide, by decide, by decide, ?_⟩
  intro h
  have h2 := ((h w_fffd_a).mp (List.mem_singleton.mpr rfl)).1
  revert h2
  decide

/-- C3, amended: in a trie built from `NewRuneTrie()` by inserting the words of
`ws`, for every non-empty prefix `p` whose last character is a single-byte
(ASCII) character, `SearchByPrefix(p)` returns a sequence; when the words of `ws`
and `p` are well-formed UTF-8 strings, its elements are exactly the words of `ws`
that have `p` as a literal prefix (`p` itself included when it is in `ws`), and
when no word of `ws` starts with `p` it is the empty sequence. -/
theorem searchByPrefix_ascii_last (ws : List GoString) (init : GoString) (b : Nat)
    (hb : b < runeSelf) :
    ∃ res, SearchByPrefix (build ws) (init ++ [b]) = some res
      ∧ ((∀ w ∈ ws, ValidUTF8 w) → ValidUTF8 (init ++ [b]) →
          (∀ x, x ∈ res ↔ x ∈ ws ∧ (init ++ [b]) <+: x)
            ∧ ((∀ w ∈ ws, ¬ (init ++ [b]) <+: w) → res = [])) := by
  obtain ⟨res, hres, hmem⟩ :=
    mem_SearchByPrefix_ascii_last (build ws) init b hb (KeysNodup_build ws)
  refine ⟨res, hres, ?_⟩
  intro hws hp
  have key : ∀ x, x ∈ res ↔ x ∈ ws ∧ (init ++ [b]) <+: x := by
    intro x
    rw [hmem]
    constructor
    · rintro ⟨q, hq, hx⟩
      obtain ⟨w, hw, hdec⟩ := (isWord_build ws _).mp hq
      have hxw : x = w := by
        rw [hx, ← hdec]; exact hws w hw
      rw [hxw]
      refine ⟨hw, (isPrefix_iff_decodeRunes_isPrefix _ _ hp (hws w hw)).mpr ?_⟩
      rw [hdec]; exact List.prefix_append _ _
    · rintro ⟨hx, hpre⟩
      obtain ⟨q, hq⟩ := (isPrefix_iff_decodeRunes_isPrefix _ _ hp (hws x hx)).mp hpre
      refine ⟨q, (isWord_build ws _).mpr ⟨x, hx, hq.symm⟩, ?_⟩
      rw [hq]; exact (hws x hx).symm
  refine ⟨key, ?_⟩
  intro hno
  apply List.eq_nil_iff_forall_not_mem.mpr
  intro x hx
  exact hno x ((key x).mp hx).1 ((key x).mp hx).2

theorem searchByPrefix_ascii_last_witness :
    114 < runeSelf ∧ (∀ w ∈ [w_cat, w_car, w_cart], ValidUTF8 w) ∧ ValidUTF8 (w_ca ++ [114])
      ∧ ∃ res, SearchByPrefix (build [w_cat, w_car, w_cart]) (w_ca ++ [114]) = some res
        ∧ (∀ x, x ∈ res ↔ x ∈ [w_cat, w_car, w_cart] ∧ (w_ca ++ [114]) <+: x)
        ∧ ((∀ w ∈ [w_cat, w_car, w_cart], ¬ (w_ca ++ [114]) <+: w) → res = []) :=
  ⟨by decide, by decide, by decide,
    (searchByPrefix_ascii_last [w_cat, w_car, w_cart] w_ca 114 (by decide)).imp
      (fun _ h => ⟨h.1, h.2 (by decide) (by decide)⟩)⟩

/-! ## Theorems: `Insert` and `Size` -/

/-- C11: `Insert` is idempotent: for every trie `t` and every word `w`, after one
`Insert(w)` a second `Insert(w)` returns true and leaves the trie unchanged
(same `Size()`, same nodes, same terminal flags). -/
theorem insert_idempotent (t : runeTrie) (w : GoString) :
    Insert (Insert t w).1 w = ((Insert t w).1, true)
      ∧ Size (Insert (Insert t w).1 w).1 = Size (Insert t w).1
      ∧ (Insert (Insert t w).1 w).1.root = (Insert t w).1.root := by
  have hword : isWord (Insert t w).1.root (decodeRunes w) = true := by
    rw [Insert_root, isWord_insertLoop]
    simp
  have hret : (Insert (Insert t w).1 w).2 = true := by
    rw [Insert_snd, StartsWith_eq]
    simp only [isWord, hasPath] at hword ⊢
    cases h : nodeAt (Insert t w).1.root (decodeRunes w) with
    | none => rw [h] at hword; cases hword
    | some m => rfl
  have hroot : (Insert (Insert t w).1 w).1.root = (Insert t w).1.root := by
    rw [Insert_root (Insert t w).1 w]
    exact insertLoop_of_isWord _ _ _ hword
  have hsize : (Insert (Insert t w).1 w).1.size = (Insert t w).1.size := by
    have : (Insert (Insert t w).1 w).1.size
        = if (Insert (Insert t w).1 w).2 = true then (Insert t w).1.size
          else (Insert t w).1.size + 1 := rfl
    rw [this, if_pos hret]
  have heq : (Insert (Insert t w).1 w).1 = (Insert t w).1 := by
    cases h1 : (Insert (Insert t w).1 w).1 with
    | mk r1 s1 =>
      cases h2 : (Insert t w).1 with
      | mk r2 s2 =>
        rw [h1, h2] at hroot hsize
        simp only at hroot hsize
        rw [hroot, hsize]
  exact ⟨Prod.ext heq hret, hsize, hroot⟩

/-- C12: for every trie `t` and every word `w`, `Insert(w)` increases `Size()` by
exactly 1 when it returns false and leaves `Size()` unchanged when it returns
true. -/
theorem size_after_insert (t : runeTrie) (w : GoString) :
    Size (Insert t w).1 = if (Insert t w).2 = true then Size t else Size t + 1 := rfl

/-! ## Theorems: failures and multi-byte characters -/

/-- C13: on every trie, `FindLongestUniqueSuffix("")` panics (index out of range
in `word[len(word)-1]`); on every non-empty word it returns a pair. -/
theorem findLongestUniqueSuffix_empty_panics :
    (∀ t : runeTrie, FindLongestUniqueSuffix t [] = none)
      ∧ ∀ (t : runeTrie) (init : GoString) (l : Nat),
          ∃ r, FindLongestUniqueSuffix t (init ++ [l]) = some r := by
  refine ⟨fun _ => rfl, ?_⟩
  intro t init l
  rw [FindLongestUniqueSuffix_concat]
  cases suffixLoop t.root [] init with
  | none => exact ⟨_, rfl⟩
  | some r =>
    obtain ⟨cur, acc⟩ := r
    simp only
    cases mapGet cur.children l with
    | none => exact ⟨_, rfl⟩
    | some fin =>
      simp only
      split_ifs <;> exact ⟨_, rfl⟩

/-- C17: `FindLongestUniqueSuffix` is incorrect for multi-byte characters: the
word é is one character encoded in two bytes; after `Insert` into a new trie
`Contains` is true, but `FindLongestUniqueSuffix` returns `("", false)`, because
the root is keyed by the character `0xE9` and the walk looks up the byte
`0xC3`. -/
theorem findLongestUniqueSuffix_multibyte_not_found :
    ∃ w : GoString, ValidUTF8 w ∧ decodeRunes w = [0xE9] ∧ w.length = 2
      ∧ Contains (Insert NewRuneTrie w).1 w = true
      ∧ FindLongestUniqueSuffix (Insert NewRuneTrie w).1 w = some ([], false)
      ∧ mapGet (Insert NewRuneTrie w).1.root.children 0xE9 = some (.mk [] true)
      ∧ mapGet (Insert NewRuneTrie w).1.root.children 0xC3 = none :=
  ⟨w_eAcute, by decide, by decide, by decide, by decide, by decide, rfl, rfl⟩

/-- C18: after inserting é, `SearchByPrefix("é")` returns the single string
`U+FFFD` followed by é (bytes EF BF BD C3 A9), which is not an inserted word and does not
start with é: `prefix[:len(prefix)-1]` cuts the last byte, not the last
character, and the cut character decodes to `U+FFFD`. -/
theorem searchByPrefix_multibyte_last_wrong :
    ValidUTF8 w_eAcute
      ∧ SearchByPrefix (build [w_eAcute]) w_eAcute = some [[0xEF, 0xBF, 0xBD, 0xC3, 0xA9]]
      ∧ ([0xEF, 0xBF, 0xBD, 0xC3, 0xA9] : GoString) ∉ [w_eAcute]
      ∧ ¬ w_eAcute <+: ([0xEF, 0xBF, 0xBD, 0xC3, 0xA9] : GoString)
      ∧ decodeRunes (w_eAcute.take (w_eAcute.length - 1)) = [runeError] :=
  ⟨by decide, by decide, by decide, by decide, by decide⟩

/-! ## Theorems: invariants of built tries -/

/-- C15: in a trie built from `NewRuneTrie()` by inserting the words of `ws`,
for every non-empty prefix `p`, if `StartsWith(p)` returns true then some
inserted word starts with the characters of `p` (for well-formed strings: has
`p` as a literal prefix); every non-root node reachable from the root is
terminal or has a terminal descendant, and `Insert` preserves this. -/
theorem startsWith_implies_word (ws : List GoString) (p : GoString) (hne : p ≠ [])
    (h : StartsWith (build ws) p = true) :
    (∃ w ∈ ws, decodeRunes p <+: decodeRunes w)
      ∧ (ValidUTF8 p → (∀ w ∈ ws, ValidUTF8 w) → ∃ w ∈ ws, p <+: w)
      ∧ Live (build ws).root
      ∧ ∀ (t : runeTrie) (w : GoString), Live t.root → Live (Insert t w).1.root := by
  have h1 : ∃ w ∈ ws, decodeRunes p <+: decodeRunes w := by
    rcases (StartsWith_build_iff ws p).mp h with h0 | h0
    · exact absurd h0 (decodeRunes_ne_nil p hne)
    · exact h0
  refine ⟨h1, ?_, Live_build ws, ?_⟩
  · intro hp hws
    obtain ⟨w, hw, hpre⟩ := h1
    exact ⟨w, hw, (isPrefix_iff_decodeRunes_isPrefix p w hp (hws w hw)).mpr hpre⟩
  · intro t w ht
    rw [Insert_root]
    exact Live_insertLoop _ _ _ ht

theorem startsWith_implies_word_witness :
    w_ca ≠ [] ∧ StartsWith (build [w_cat, w_car, w_cart]) w_ca = true
      ∧ (∃ w ∈ [w_cat, w_car, w_cart], decodeRunes w_ca <+: decodeRunes w)
      ∧ (ValidUTF8 w_ca → (∀ w ∈ [w_cat, w_car, w_cart], ValidUTF8 w)
          → ∃ w ∈ [w_cat, w_car, w_cart], w_ca <+: w)
      ∧ Live (build [w_cat, w_car, w_cart]).root
      ∧ ∀ (t : runeTrie) (w : GoString), Live t.root → Live (Insert t w).1.root :=
  ⟨by decide, by decide,
    startsWith_implies_word [w_cat, w_car, w_cart] w_ca (by decide) (by decide)⟩

/-- C19, as stated, fails: the ill-formed strings FF and FE are distinct,
non-empty and neither is a prefix of the other, yet after inserting both
`Size()` is 1. -/
theorem size_one_of_two_illformed_words :
    (∀ w ∈ [w_ff, w_fe], w ≠ [])
      ∧ [w_ff, w_fe].Pairwise (fun earlier later => ¬ (later <+: earlier ∧ later ≠ earlier))
      ∧ [w_ff, w_fe].dedup.length = 2
      ∧ Size (build [w_ff, w_fe]) = 1 :=
  ⟨by decide, by decide, by decide, by decide⟩

/-- C19, amended: for every sequence of non-empty well-formed UTF-8 words
inserted into a new trie in which no word is a proper prefix of a word inserted
before it, `Size()` equals the number of distinct words inserted; and for every
sequence of inserts whatsoever, `Size()` is at most the number of distinct words
inserted. -/
theorem size_eq_distinct_of_no_late_prefix (ws : List GoString)
    (hne : ∀ w ∈ ws, w ≠ []) (hvalid : ∀ w ∈ ws, ValidUTF8 w)
    (hpre : ws.Pairwise (fun earlier later => ¬ (later <+: earlier ∧ later ≠ earlier))) :
    Size (build ws) = ws.dedup.length
      ∧ ∀ vs : List GoString, Size (build vs) ≤ vs.dedup.length := by
  constructor
  · induction ws using List.reverseRecOn with
    | nil => rfl
    | append_singleton ws w ih =>
      have hne2 : ∀ v ∈ ws, v ≠ [] := fun v hv => hne v (List.mem_append_left _ hv)
      have hvalid2 : ∀ v ∈ ws, ValidUTF8 v := fun v hv => hvalid v (List.mem_append_left _ hv)
      obtain ⟨hp1, _, hp3⟩ := List.pairwise_append.mp hpre
      have hw1 : w ≠ [] := hne w (by simp)
      have hw2 : ValidUTF8 w := hvalid w (by simp)
      have hiff : StartsWith (build ws) w = true ↔ w ∈ ws := by
        rw [StartsWith_build_iff]
        constructor
        · rintro (h0 | ⟨v, hv, hvp⟩)
          · exact absurd h0 (decodeRunes_ne_nil w hw1)
          · have hlit : w <+: v :=
              (isPrefix_iff_decodeRunes_isPrefix w v hw2 (hvalid2 v hv)).mpr hvp
            have hno := hp3 v hv w (by simp)
            have hwv : w = v := by
              by_contra hc
              exact hno ⟨hlit, hc⟩
            rw [hwv]; exact hv
        · intro hw
          exact Or.inr ⟨w, hw, List.prefix_refl _⟩
      rw [Size_build_concat, dedup_length_concat, ih hne2 hvalid2 hp1]
      by_cases hw : w ∈ ws
      · rw [if_pos (hiff.mpr hw), if_pos hw]
      · rw [if_neg (fun h => hw (hiff.mp h)), if_neg hw]
  · intro vs
    induction vs using List.reverseRecOn with
    | nil => exact le_refl _
    | append_singleton vs w ih =>
      rw [Size_build_concat, dedup_length_concat]
      by_cases hw : w ∈ vs
      · have hs : StartsWith (build vs) w = true :=
          (StartsWith_build_iff vs w).mpr (Or.inr ⟨w, hw, List.prefix_refl _⟩)
        rw [if_pos hs, if_pos hw]
        exact ih
      · rw [if_neg hw]
        split_ifs <;> omega

theorem size_eq_distinct_of_no_late_prefix_witness :
    (∀ w ∈ [w_car, w_cart, w_cart, w_cat], w ≠ [])
      ∧ (∀ w ∈ [w_car, w_cart, w_cart, w_cat], ValidUTF8 w)
      ∧ [w_car, w_cart, w_cart, w_cat].Pairwise
          (fun earlier later => ¬ (later <+: earlier ∧ later ≠ earlier))
      ∧ Size (build [w_car, w_cart, w_cart, w_cat]) = [w_car, w_cart, w_cart, w_cat].dedup.length
      ∧ ∀ vs : List GoString, Size (build vs) ≤ vs.dedup.length :=
  ⟨by decide, by decide, by decide,
    size_eq_distinct_of_no_late_prefix [w_car, w_cart, w_cart, w_cat] (by decide) (by decide)
      (by decide)⟩

/-! ## Theorems: read operations -/

/-- C14: the read operations `Contains`, `StartsWith`, `SearchByPrefix` and
`FindLongestUniqueSuffix` leave the trie unchanged (root, every node's children
and terminal flag, and size), so repeating a read without an intervening
`Insert` gives the same answer; for `SearchByPrefix`, whatever the iteration
orders of the children maps in the two calls, the two results are
rearrangements of each other and hold the same set of words. -/
theorem reads_leave_trie_unchanged
    (ord1 ord2 : List Nat → List (List GoString) → List (List GoString))
    (h1 : IsOrder ord1) (h2 : IsOrder ord2) (t : runeTrie) (w : GoString) :
    (ContainsCall t w).1 = t ∧ (StartsWithCall t w).1 = t
      ∧ (SearchByPrefixCall ord1 t w).1 = t ∧ (FindLongestUniqueSuffixCall t w).1 = t
      ∧ (ContainsCall (ContainsCall t w).1 w).2 = (ContainsCall t w).2
      ∧ (StartsWithCall (StartsWithCall t w).1 w).2 = (StartsWithCall t w).2
      ∧ (FindLongestUniqueSuffixCall (FindLongestUniqueSuffixCall t w).1 w).2
          = (FindLongestUniqueSuffixCall t w).2
      ∧ (((SearchByPrefixCall ord1 t w).2 = none
            ∧ (SearchByPrefixCall ord2 (SearchByPrefixCall ord1 t w).1 w).2 = none)
          ∨ ∃ res1 res2, (SearchByPrefixCall ord1 t w).2 = some res1
              ∧ (SearchByPrefixCall ord2 (SearchByPrefixCall ord1 t w).1 w).2 = some res2
              ∧ res1.Perm res2 ∧ ∀ x, x ∈ res1 ↔ x ∈ res2) := by
  refine ⟨rfl, rfl, rfl, rfl, rfl, rfl, rfl, ?_⟩
  show (SearchByPrefixOrd ord1 t w = none ∧ SearchByPrefixOrd ord2 t w = none)
    ∨ ∃ res1 res2, SearchByPrefixOrd ord1 t w = some res1
        ∧ SearchByPrefixOrd ord2 t w = some res2 ∧ res1.Perm res2 ∧ ∀ x, x ∈ res1 ↔ x ∈ res2
  rcases SearchByPrefixOrd_perm ord1 h1 t w with ⟨a1, b1⟩ | ⟨r1, s1, a1, b1, p1⟩
  · rcases SearchByPrefixOrd_perm ord2 h2 t w with ⟨a2, _⟩ | ⟨r2, s2, _, b2, _⟩
    · exact Or.inl ⟨a1, a2⟩
    · rw [b1] at b2; cases b2
  · rcases SearchByPrefixOrd_perm ord2 h2 t w with ⟨_, b2⟩ | ⟨r2, s2, a2, b2, p2⟩
    · rw [b1] at b2; cases b2
    · rw [b1] at b2
      cases b2
      have hperm : r1.Perm r2 := p1.trans p2.symm
      exact Or.inr ⟨r1, r2, a1, a2, hperm, fun x => hperm.mem_iff⟩

theorem reads_leave_trie_unchanged_witness :
    IsOrder (fun _ l => l) ∧ IsOrder (fun _ l => l.reverse)
      ∧ (ContainsCall (build [w_cat, w_car, w_cart]) w_ca).1 = build [w_cat, w_car, w_cart]
      ∧ (StartsWithCall (build [w_cat, w_car, w_cart]) w_ca).1 = build [w_cat, w_car, w_cart]
      ∧ (SearchByPrefixCall (fun _ l => l) (build [w_cat, w_car, w_cart]) w_ca).1
          = build [w_cat, w_car, w_cart]
      ∧ (FindLongestUniqueSuffixCall (build [w_cat, w_car, w_cart]) w_ca).1
          = build [w_cat, w_car, w_cart]
      ∧ (ContainsCall (ContainsCall (build [w_cat, w_car, w_cart]) w_ca).1 w_ca).2
          = (ContainsCall (build [w_cat, w_car, w_cart]) w_ca).2
      ∧ (StartsWithCall (StartsWithCall (build [w_cat, w_car, w_cart]) w_ca).1 w_ca).2
          = (StartsWithCall (build [w_cat, w_car, w_cart]) w_ca).2
      ∧ (FindLongestUniqueSuffixCall
            (FindLongestUniqueSuffixCall (build [w_cat, w_car, w_cart]) w_ca).1 w_ca).2
          = (FindLongestUniqueSuffixCall (build [w_cat, w_car, w_cart]) w_ca).2
      ∧ (((SearchByPrefixCall (fun _ l => l) (build [w_cat, w_car, w_cart]) w_ca).2 = none
            ∧ (SearchByPrefixCall (fun _ l => l.reverse)
                (SearchByPrefixCall (fun _ l => l) (build [w_cat, w_car, w_cart]) w_ca).1
                w_ca).2 = none)
          ∨ ∃ res1 res2,
              (SearchByPrefixCall (fun _ l => l) (build [w_cat, w_car, w_cart]) w_ca).2
                = some res1
              ∧ (SearchByPrefixCall (fun _ l => l.reverse)
                  (SearchByPrefixCall (fun _ l => l) (build [w_cat, w_car, w_cart]) w_ca).1
                  w_ca).2 = some res2
              ∧ res1.Perm res2 ∧ ∀ x, x ∈ res1 ↔ x ∈ res2) :=
  ⟨fun _ l => List.Perm.refl l, fun _ l => List.reverse_perm l,
    reads_leave_trie_unchanged (fun _ l => l) (fun _ l => l.reverse)
      (fun _ l => List.Perm.refl l) (fun _ l => List.reverse_perm l)
      (build [w_cat, w_car, w_cart]) w_ca⟩

/-- C16, as stated, fails: the ill-formed strings a FF and a FE are two
distinct inserted words that start with a, yet `SearchByPrefix("a")` returns
one string. -/
theorem searchByPrefix_one_string_for_two_words :
    w_a ≠ [] ∧ SearchByPrefix (build [w_a_ff, w_a_fe]) w_a = some [w_a_fffd]
      ∧ ([w_a_ff, w_a_fe].dedup.filter (fun w => decide (w_a <+: w))).length = 2 :=
  ⟨by decide, by decide, by decide⟩

/-- C16, amended: in a trie built from `NewRuneTrie()` by inserting the words of
`ws`, for every non-empty prefix `p` and every iteration order of the children
maps, the sequence returned by `SearchByPrefix(p)` contains no duplicates and
its length is the number of terminal nodes under the node of `p` (each
contributes exactly one word); when the words of `ws` and `p` are well-formed
UTF-8 strings, that length is the number of distinct words of `ws` that start
with `p`. -/
theorem searchByPrefix_no_duplicates
    (ord : List Nat → List (List GoString) → List (List GoString)) (hord : IsOrder ord)
    (ws : List GoString) (p : GoString) (hne : p ≠ []) :
    ∃ res, SearchByPrefixOrd ord (build ws) p = some res ∧ res.Nodup
      ∧ (∀ m, (nodeByPrefix (build ws) p).1 = some m → res.length = countLast m)
      ∧ ((∀ w ∈ ws, ValidUTF8 w) → ValidUTF8 p →
          res.length = (ws.dedup.filter (fun w => decide (p <+: w))).length) := by
  obtain ⟨res2, hres2, hnd⟩ := SearchByPrefix_nodup ws p hne
  rcases SearchByPrefixOrd_perm ord hord (build ws) p with ⟨_, b⟩ | ⟨r1, s1, a, b, hperm⟩
  · rw [hres2] at b; cases b
  · rw [hres2] at b
    cases b
    refine ⟨r1, a, hperm.nodup_iff.mpr hnd, ?_, ?_⟩
    · intro m hm
      rw [hperm.length_eq]
      exact SearchByPrefix_length_countLast (build ws) p m res2 hm hres2
    · intro hws hp
      obtain ⟨res3, hres3, _, hlen⟩ := SearchByPrefix_nodup_length ws p hne hws hp
      rw [hres2] at hres3
      cases hres3
      rw [hperm.length_eq, hlen]

theorem searchByPrefix_no_duplicates_witness :
    IsOrder (fun _ l => l.reverse) ∧ w_ca ≠ [] ∧ (∀ w ∈ [w_cat, w_car, w_cart, w_car], ValidUTF8 w)
      ∧ ValidUTF8 w_ca
      ∧ ∃ res, SearchByPrefixOrd (fun _ l => l.reverse) (build [w_cat, w_car, w_cart, w_car]) w_ca
            = some res
          ∧ res.Nodup
          ∧ (∀ m, (nodeByPrefix (build [w_cat, w_car, w_cart, w_car]) w_ca).1 = some m
              → res.length = countLast m)
          ∧ res.length
              = ([w_cat, w_car, w_cart, w_car].dedup.filter (fun w => decide (w_ca <+: w))).length :=
  ⟨fun _ l => List.reverse_perm l, by decide, by decide, by decide,
    (searchByPrefix_no_duplicates (fun _ l => l.reverse) (fun _ l => List.reverse_perm l)
      [w_cat, w_car, w_cart, w_car] w_ca (by decide)).imp
      (fun _ h => ⟨h.1, h.2.1, h.2.2.1, h.2.2.2 (by decide) (by decide)⟩)⟩

end RuneTrie
